import Mathlib

/-!
Verification of the bibtex-to-qmd conversion pipeline (`src/bibtex_to_qmd.py`).

The script converts bibliography records into per-publication `.qmd` page
files.  We embed its pure string/record logic shallowly: strings are lists of
characters (`Str`), bibliography entries are association lists of fields plus
an entry type and a citation key, and the filesystem / network effects of the
image resolver are threaded through an explicit state record together with a
fetch oracle.  Python-specific primitives (`str.replace`, `re` searches,
`int()` parsing, `str.strip`) are modelled by executable functions whose
semantics follow CPython's on the inputs the script can produce.
-/

/-- Strings are modelled as lists of characters. -/
abbrev Str := List Char

/-- Coerce a Lean string literal to the `Str` representation. -/
def str (s : String) : Str := s.data

/-- Substring test, modelling Python's `pat in s` (for nonempty `pat`;
`"" in s` is always true in Python, matched by the `[]` case). -/
def containsSub (s pat : Str) : Bool :=
  match s with
  | [] => pat.isEmpty
  | _ :: t => pat.isPrefixOf s || containsSub t pat

/-- One step of Python's `str.replace`, fuel-indexed so that the definition is
structural and kernel-reducible.  The fuel decreases by one each step while at
least one character of the subject is consumed, so `fuel = s.length` always
suffices (see `pyReplaceAux_fuel`). -/
def pyReplaceAux (pat rep : Str) : Nat → Str → Str
  | _, [] => []
  | 0, s => s
  | fuel + 1, c :: t =>
    if pat ≠ [] ∧ pat.isPrefixOf (c :: t) then
      rep ++ pyReplaceAux pat rep fuel ((c :: t).drop pat.length)
    else
      c :: pyReplaceAux pat rep fuel t

/-- Python's `s.replace(pat, rep)`: replace all non-overlapping occurrences of
`pat` left to right.  (The script never calls it with an empty pattern.) -/
def pyReplace (s pat rep : Str) : Str := pyReplaceAux pat rep s.length s

/-- Python whitespace characters stripped by `str.strip()` (ASCII subset). -/
def isPySpace (c : Char) : Bool :=
  c = ' ' || c = '\t' || c = '\n' || c = '\x0d' || c = '\x0b' || c = '\x0c'

/-- Python's `str.strip()`. -/
def pyStrip (s : Str) : Str :=
  ((s.dropWhile isPySpace).reverse.dropWhile isPySpace).reverse

/-- ASCII digit test (decimal digits as accepted by `int()` on the script's
ASCII inputs). -/
def isDigitC (c : Char) : Bool := 48 ≤ c.toNat && c.toNat ≤ 57

/-- Digit-run validity for Python `int()`: nonempty, digits with single
underscores allowed only between two digits. -/
def validIntDigits : Str → Bool
  | [] => false
  | [c] => isDigitC c
  | c :: '_' :: t => isDigitC c && validIntDigits t
  | c :: t => isDigitC c && validIntDigits t

/-- Numeric value of the digit characters of a run (underscores skipped). -/
def digitsVal (s : Str) : Nat :=
  s.foldl (fun acc c => if isDigitC c then acc * 10 + (c.toNat - 48) else acc) 0

/-- Python's `int(s)` on a string: optional surrounding whitespace, optional
sign, then a digit run (underscores allowed between digits); `none` models
a raised `ValueError`. -/
def pyInt (s : Str) : Option Int :=
  match pyStrip s with
  | '+' :: r => if validIntDigits r then some (digitsVal r) else none
  | '-' :: r => if validIntDigits r then some (-(digitsVal r : Int)) else none
  | r => if validIntDigits r then some (digitsVal r) else none

/-- Split on a separator substring, modelling Python's `s.split(sep)` for a
nonempty `sep`, fuel-indexed (fuel `= s.length` suffices). -/
def pySplitAux (sep : Str) : Nat → Str → List Str
  | _, [] => [[]]
  | 0, s => [s]
  | fuel + 1, c :: t =>
    if sep ≠ [] ∧ sep.isPrefixOf (c :: t) then
      [] :: pySplitAux sep fuel ((c :: t).drop sep.length)
    else
      match pySplitAux sep fuel t with
      | [] => [[c]]
      | w :: ws => (c :: w) :: ws

/-- Python's `s.split(sep)` for nonempty `sep`. -/
def pySplit (s sep : Str) : List Str := pySplitAux sep s.length s

/-- Python's `s.split(sep, 1)` for a one-character separator: the part before
the first occurrence and the part after it (the whole string and `[]` when
the separator does not occur). -/
def pySplitOnce (s : Str) (sep : Char) : Str × Str :=
  (s.takeWhile (· ≠ sep), (s.dropWhile (· ≠ sep)).drop 1)

/-- Model of `re.search(key ++ "=([^,]+)", s).group(1)`: the first position
where `key=` is followed by at least one non-comma character wins, and the
capture is the maximal run of non-comma characters; `none` models a failed
search (on which the script's `.group(1)` raises). -/
def searchKV (key : Str) : Str → Option Str
  | [] => none
  | c :: t =>
    let cap := ((c :: t).drop (key.length + 1)).takeWhile (· ≠ ',')
    if (key ++ ['=']).isPrefixOf (c :: t) && !cap.isEmpty then
      some cap
    else
      searchKV key t

/- ### Configuration constants of the script -/

/-- Configured self-identity name (`SELF_NAME`). -/
def SELF_NAME : Str := str "James Doss-Gollin"

/-- Configured group roster (`GROUP_MEMBERS`). -/
def GROUP_MEMBERS : List Str := [str "Yuchen Lu", str "Lu, Yuchen"]

/- ### Bibliography records -/

/-- A parsed bibliography record: entry type (`ENTRYTYPE`), citation key
(`ID`) and the remaining fields as an association list. -/
structure Entry where
  type : Str
  id : Str
  fields : List (Str × Str)
deriving DecidableEq

/-- Field lookup, modelling `key in entry` / `entry[key]`. -/
def fieldGet (e : Entry) (key : Str) : Option Str :=
  (e.fields.find? (fun p => p.1 = key)).map Prod.snd

/-- Field lookup with default, modelling `entry.get(key, d)`. -/
def fieldGetD (e : Entry) (key : Str) (d : Str) : Str :=
  (fieldGet e key).getD d

/- ### Simple string transformations of the script -/

/-- Embeds `citekey_to_string`: replace every character outside
`[a-zA-Z0-9_-]` by an underscore (`re.sub` with a single-character class). -/
def citekey_to_string (citekey : Str) : Str :=
  citekey.map (fun c => if c.isAlphanum || c = '_' || c = '-' then c else '_')

/-- Embeds `escape_yaml_string`: `value.replace(r"\&", "&").replace(r"\:", ":")`. -/
def escape_yaml_string (value : Str) : Str :=
  pyReplace (pyReplace value (str "\\&") (str "&")) (str "\\:") (str ":")

/-- Embeds `format_date`: append `"-01-01"` when the raw string parses as a
Python integer, otherwise return the input unchanged (the bare `except`). -/
def format_date (date : Str) : Str :=
  match pyInt date with
  | some _ => date ++ str "-01-01"
  | none => date

/-- Values reaching `extract_year`: the script checks `isinstance(date, int)`
and `isinstance(date, str)`. -/
inductive PyVal where
  | int (n : Int)
  | s (v : Str)
deriving DecidableEq

/-- Embeds `extract_year`: an integer is returned directly; for a string, the
part before the first `-` is parsed with `int()`, any failure yielding
`none` (the bare `except` returning `None`). -/
def extract_year : PyVal → Option Int
  | .int n => some n
  | .s v => pyInt ((pySplitOnce v '-').1)

/-- Embeds lines 76–90 of `format_author_name` (the name-shape dispatch,
before emphasis is applied).  `none` models a raised `AttributeError` from
`re.search(...).group(1)` when a search fails. -/
def format_author_name_core (name : Str) : Option Str :=
  if containsSub name (str "family=") && containsSub name (str "given=") then
    match searchKV (str "family") name, searchKV (str "given") name with
    | some fam, some giv =>
      let family := pyStrip fam
      let given := pyStrip giv
      if containsSub name (str "prefix=") then
        match searchKV (str "prefix") name, searchKV (str "useprefix") name with
        | some pfx, some upfx =>
          let family' :=
            if pyStrip upfx = str "true" then pyStrip pfx ++ [' '] ++ family
            else family
          some (given ++ [' '] ++ family')
        | _, _ => none
      else
        some (given ++ [' '] ++ family)
    | _, _ => none
  else if containsSub name [','] then
    let (last, first) := pySplitOnce name ','
    some (pyStrip first ++ [' '] ++ pyStrip last)
  else
    some name

/-- Hyphen removal, `s.replace("-", "")`. -/
def dehyphen (s : Str) : Str := s.filter (· ≠ '-')

/-- Embeds lines 92–100 of `format_author_name`: wrap the formatted name in
strong (`**`) markers on an exact or hyphen-insensitive match with
`SELF_NAME`, in italic (`*`) markers on group-roster membership, else leave
it plain. -/
def emphasisWrap (n : Str) : Str :=
  if n = SELF_NAME || dehyphen n = dehyphen SELF_NAME then
    str "**" ++ n ++ str "**"
  else if n ∈ GROUP_MEMBERS then
    ['*'] ++ n ++ ['*']
  else n

/-- Embeds `format_author_name` (dispatch then emphasis). -/
def format_author_name (name : Str) : Option Str :=
  (format_author_name_core name).map emphasisWrap

/-- Embeds `get_details_from_entry`. -/
def get_details_from_entry (e : Entry) : Str :=
  if e.type = str "article" then
    fieldGetD e (str "journaltitle") []
  else if e.type = str "inproceedings" then
    match fieldGet e (str "booktitle") with
    | some b => b
    | none =>
      match fieldGet e (str "eventtitle"), fieldGet e (str "publisher") with
      | some ev, some pub => pub ++ [' '] ++ ev
      | some ev, none => ev
      | none, _ => []
  else
    fieldGetD e (str "howpublished") []

/-- Embeds the directory choice of `entry_to_qmd`. -/
def entryDirectory (t : Str) : Str :=
  if t = str "article" then str "publications/article"
  else if t = str "inproceedings" then str "publications/conference"
  else if t = str "online" || t = str "preprint" then str "publications/forthcoming"
  else str "publications/other"

/-- Embeds the output path computed by `entry_to_qmd`:
`Path(directory, f"{citekey}.qmd")`. -/
def entry_to_qmd_path (e : Entry) : Str :=
  entryDirectory e.type ++ ['/'] ++ citekey_to_string e.id ++ str ".qmd"

/- ### Title formatting -/

/-- One round limit of the doubled-brace collapse loop of `format_title`,
fuel-indexed.  Each iteration runs only when `"{{"` (and `"}}"`) occur, and
then strictly shrinks the string, so `fuel = s.length` always suffices for
the loop to reach its exit condition. -/
def collapseAux : Nat → Str → Str
  | 0, s => s
  | fuel + 1, s =>
    if containsSub s (str "\x7b\x7b") && containsSub s (str "\x7d\x7d") then
      collapseAux fuel (pyReplace (pyReplace s (str "\x7b\x7b") ['\x7b']) (str "\x7d\x7d") ['\x7d'])
    else s

/-- The `while "{{" in title and "}}" in title` loop of `format_title`. -/
def collapseBraces (s : Str) : Str := collapseAux s.length s

/-- The body scan of `re.findall(r"\x7b(.*?)\x7d", ...)` at an opening brace:
collect characters up to the first `}`; fail at end of string or at a
newline (`.` does not match a newline). -/
def scanSpan : Str → Option (Str × Str)
  | [] => none
  | c :: r =>
    if c = '\x7d' then some ([], r)
    else if c = '\n' then none
    else (scanSpan r).map (fun p => (c :: p.1, p.2))

/-- All captures of `re.findall(r"\x7b(.*?)\x7d", s)` in order, fuel-indexed
(fuel `= s.length` suffices; the continuation string after a match is
strictly shorter than the scanned remainder). -/
def findAllAux : Nat → Str → List Str
  | 0, _ => []
  | _ + 1, [] => []
  | fuel + 1, c :: t =>
    if c = '\x7b' then
      match scanSpan t with
      | some (sp, rest) => sp :: findAllAux fuel rest
      | none => findAllAux fuel t
    else
      findAllAux fuel t

/-- `re.findall(r"\x7b(.*?)\x7d", s)`. -/
def findAllBraced (s : Str) : List Str := findAllAux s.length s

/-- The placeholder `f"_p{idx}"` used by `format_title`. -/
def phTok (idx : Nat) : Str := ['_', 'p'] ++ (Nat.repr idx).data

/-- ASCII lower-casing of one character (the title-casing model never needs
non-ASCII case folding). -/
def asciiLower (c : Char) : Char :=
  if 65 ≤ c.toNat && c.toNat ≤ 90 then Char.ofNat (c.toNat + 32) else c

/-- ASCII upper-casing of one character. -/
def asciiUpper (c : Char) : Char :=
  if 97 ≤ c.toNat && c.toNat ≤ 122 then Char.ofNat (c.toNat - 32) else c

/-- Minor words of title-casing (the `titlecase` library's small-word list). -/
def SMALL_WORDS : List Str :=
  [str "a", str "an", str "and", str "as", str "at", str "but", str "by",
   str "en", str "for", str "if", str "in", str "of", str "on", str "or",
   str "the", str "to", str "v", str "v.", str "via", str "vs", str "vs."]

/-- Split on single spaces, keeping empty words, so that
`joinWords (splitWords s) = s`. -/
def splitWords : Str → List Str
  | [] => [[]]
  | c :: t =>
    if c = ' ' then [] :: splitWords t
    else
      match splitWords t with
      | [] => [[c]]
      | w :: ws => (c :: w) :: ws

/-- Rejoin words with single spaces. -/
def joinWords : List Str → Str
  | [] => []
  | [w] => w
  | w :: ws => w ++ ' ' :: joinWords ws

/-- Lower-case a whole word. -/
def lowerWord (w : Str) : Str := w.map asciiLower

/-- Capitalize the first character of a word (identity on a character without
an ASCII upper-case form, in particular on `_`). -/
def capFirstWord : Str → Str
  | [] => []
  | c :: t => asciiUpper c :: t

/-- Modelled from the spec: standard title-casing — capitalize each word
except a fixed set of minor words, which are lower-cased unless they are the
first or last word.  The Python `titlecase` library that `format_title`
imports is an external dependency whose source is not part of this
repository, so its word-wise rule is modelled from the specification's
description; like the library, it leaves a leading non-letter character (such
as the `_` of a placeholder token) untouched. -/
def titlecase (s : Str) : Str :=
  let ws := splitWords s
  joinWords (ws.enum.map (fun p =>
    if p.1 ≠ 0 && p.1 ≠ ws.length - 1 && decide (lowerWord p.2 ∈ SMALL_WORDS) then
      lowerWord p.2
    else capFirstWord p.2))

/-- Embeds `format_title`: collapse doubled braces, swap brace-delimited
spans for `_p{idx}` placeholders with `str.replace`, title-case, then
substitute the placeholders back with `str.replace`. -/
def format_title (title : Str) : Str :=
  if title = [] then title
  else
    let t1 := collapseBraces title
    let preserved := findAllBraced t1
    let t2 := preserved.enum.foldl
      (fun acc p => pyReplace acc ('\x7b' :: p.2 ++ ['\x7d']) (phTok p.1)) t1
    let t3 := titlecase t2
    preserved.enum.foldl (fun acc p => pyReplace acc (phTok p.1) p.2) t3

/- ### Image resolver -/

/-- The `IMAGE_STATS` counters. -/
structure ImageStats where
  existing_images : Nat
  generated_thumbnails : Nat
  failed_thumbnails : Nat
  no_pdf_sources : Nat
  skipped_types : Nat
deriving DecidableEq

/-- The zeroed counters set up at process start. -/
def ImageStats.init : ImageStats := ⟨0, 0, 0, 0, 0⟩

/-- Sum of all counters (the script's `sum(IMAGE_STATS.values())`, printed as
"Total publications"). -/
def ImageStats.total (st : ImageStats) : Nat :=
  st.existing_images + st.generated_thumbnails + st.failed_thumbnails +
    st.no_pdf_sources + st.skipped_types

/-- Run-scoped mutable state of the script: the files present on disk, the
`FAILED_PDF_URLS` memo and the `IMAGE_STATS` counters. -/
structure RunState where
  fs : List Str
  memo : List Str
  stats : ImageStats
deriving DecidableEq

/-- Static facts about one run: whether PyMuPDF imported (`PDF_SUPPORT`) and
an oracle giving the outcome of downloading a URL and rendering its first
page (the body of `create_pdf_thumbnail`'s `try`). -/
structure RunCfg where
  pdfSupport : Bool
  fetch : Str → Bool

/-- The image-assets directory. -/
def assetsDir : Str := str "_assets/img/pubs"

/-- Embeds `create_pdf_thumbnail` (its effects): `False` without PDF support
or for a memoized URL; on a successful fetch the thumbnail file appears on
disk and `generated_thumbnails` is incremented; on a failure the URL joins
`FAILED_PDF_URLS` and `failed_thumbnails` is incremented. -/
def create_pdf_thumbnail (cfg : RunCfg) (pdfUrl outputPath : Str) (st : RunState) :
    Bool × RunState :=
  if !cfg.pdfSupport then (false, st)
  else if pdfUrl ∈ st.memo then (false, st)
  else if cfg.fetch pdfUrl then
    (true, { st with fs := outputPath :: st.fs,
                     stats := { st.stats with
                       generated_thumbnails := st.stats.generated_thumbnails + 1 } })
  else
    (false, { st with memo := pdfUrl :: st.memo,
                      stats := { st.stats with
                        failed_thumbnails := st.stats.failed_thumbnails + 1 } })

/-- The path `assets_dir / f"{citekey}.{extension}"`. -/
def imageAssetPath (citekey ext : Str) : Str :=
  assetsDir ++ ['/'] ++ citekey ++ ['.'] ++ ext

/-- The extension list probed for an existing image, in order. -/
def imageExts : List Str := [str "png", str "jpg", str "jpeg"]

/-- The probe loop of `find_or_create_image` over the extension list. -/
def probeExisting (fs : List Str) (citekey : Str) : List Str → Option Str
  | [] => none
  | ext :: rest =>
    let p := imageAssetPath citekey ext
    if p ∈ fs then some p else probeExisting fs citekey rest

/-- The candidate PDF source URLs assembled by `find_or_create_image`. -/
def pdfUrlCandidates (e : Entry) : List Str :=
  (match fieldGet e (str "preprint") with
   | some u => [u]
   | none => []) ++
  (match fieldGet e (str "url") with
   | some u => if containsSub (u.map asciiLower) (str ".pdf") then [u] else []
   | none => []) ++
  (match fieldGet e (str "doi") with
   | some d => [str "https://doi.org/" ++ d]
   | none => [])

/-- The `for pdf_url in pdf_urls` loop of `find_or_create_image`. -/
def tryPdfUrls (cfg : RunCfg) (thumbnailPath : Str) (st : RunState) :
    List Str → Option Str × RunState
  | [] => (none, st)
  | u :: rest =>
    match create_pdf_thumbnail cfg u thumbnailPath st with
    | (true, st') => (some (str "../../" ++ thumbnailPath), st')
    | (false, st') => tryPdfUrls cfg thumbnailPath st' rest

/-- Embeds `find_or_create_image`. -/
def find_or_create_image (cfg : RunCfg) (e : Entry) (st : RunState) :
    Option Str × RunState :=
  let citekey := citekey_to_string e.id
  match probeExisting st.fs citekey imageExts with
  | some p =>
    (some (str "../../" ++ p),
     { st with stats := { st.stats with existing_images := st.stats.existing_images + 1 } })
  | none =>
    if e.type ∉ [str "article", str "online", str "preprint"] then
      (none, { st with stats := { st.stats with skipped_types := st.stats.skipped_types + 1 } })
    else
      let thumbnailPath := imageAssetPath citekey (str "png")
      match tryPdfUrls cfg thumbnailPath st (pdfUrlCandidates e) with
      | (some p, st') => (some p, st')
      | (none, st') =>
        (none, { st' with stats := { st'.stats with
          no_pdf_sources := st'.stats.no_pdf_sources + 1 } })

/- ### Page metadata emission -/

/-- A link descriptor (display text, href, icon) of the links list. -/
structure Link where
  text : Str
  href : Str
  icon : Str
deriving DecidableEq

/-- The first block of the links list (lines 290–308): a DOI link takes
priority; only without a DOI is a bare URL link emitted (the `elif`); either
carries the open-access badge when the `open` field is the literal
`"true"`. -/
def doiOrUrlLinks (e : Entry) : List Link :=
  let isOpen := fieldGetD e (str "open") [] = str "true"
  match fieldGet e (str "doi") with
  | some doi =>
    [{ text := str "DOI: " ++ doi ++ (if isOpen then str " (Open Access)" else []),
       href := str "https://doi.org/" ++ doi,
       icon := str "link" }]
  | none =>
    match fieldGet e (str "url") with
    | some url =>
      [{ text := if isOpen then str "Open Access" else str "Link",
         href := url,
         icon := str "link" }]
    | none => []

/-- The repository link block (lines 311–314). -/
def repoLinks (e : Entry) : List Link :=
  match fieldGet e (str "repo") with
  | some repo => [{ text := str "Code", href := repo, icon := str "github" }]
  | none => []

/-- The preprint link block (lines 317–320). -/
def preprintLinks (e : Entry) : List Link :=
  match fieldGet e (str "preprint") with
  | some pre => [{ text := str "Preprint", href := pre, icon := str "file-pdf" }]
  | none => []

/-- The ordered links list emitted by lines 286–320 of
`write_metadata_to_qmd`: DOI-or-URL first, then repository, then preprint. -/
def linksFor (e : Entry) : List Link :=
  doiOrUrlLinks e ++ repoLinks e ++ preprintLinks e

/-- The literal YAML text of the links section (lines 286–320), written with
the exact key order and quoting of the script. -/
def linksText (e : Entry) : Str :=
  let isOpen := fieldGetD e (str "open") [] = str "true"
  (match fieldGet e (str "doi") with
   | some doi =>
     (if isOpen then
        str "    - text: 'DOI: " ++ doi ++ str " (Open Access)'\n"
      else
        str "    - text: 'DOI: " ++ doi ++ str "'\n") ++
     str "      href: https://doi.org/" ++ doi ++ ['\n'] ++
     str "      icon: link\n"
   | none =>
     match fieldGet e (str "url") with
     | some url =>
       str "    - href: " ++ url ++ ['\n'] ++
       str "      icon: link\n" ++
       (if isOpen then str "      text: 'Open Access'\n"
        else str "      text: 'Link'\n")
     | none => []) ++
  (match fieldGet e (str "repo") with
   | some repo =>
     str "    - icon: github\n" ++ str "      text: Code\n" ++
     str "      href: " ++ repo ++ ['\n']
   | none => []) ++
  (match fieldGet e (str "preprint") with
   | some pre =>
     str "    - text: Preprint\n" ++ str "      icon: file-pdf\n" ++
     str "      href: " ++ pre ++ ['\n']
   | none => [])

/-- Formatted author lines; `none` models the `AttributeError` escaping from
`format_author_name` for one of the authors. -/
def authorLines : List Str → Option Str
  | [] => some []
  | a :: rest =>
    match format_author_name (pyStrip a), authorLines rest with
    | some fa, some acc => some (str "  - " ++ fa ++ ['\n'] ++ acc)
    | _, _ => none

/-- Embeds `write_metadata_to_qmd`: the full text written to the `.qmd` file
(`none` when author formatting raises, in which case the image resolver is
never reached and the run state is returned unchanged). -/
def write_metadata_to_qmd (cfg : RunCfg) (e : Entry) (st : RunState) :
    Option Str × RunState :=
  match authorLines (pySplit (fieldGetD e (str "author") []) (str " and ")) with
  | none => (none, st)
  | some authLines =>
    let titleLine := str "title: \"" ++
      format_title (escape_yaml_string (fieldGetD e (str "title") [])) ++ str "\"\n"
    let dateLine := str "date: " ++ format_date (fieldGetD e (str "date") []) ++ ['\n']
    let detailsLine := str "details: \"" ++
      format_title (escape_yaml_string (get_details_from_entry e)) ++ str "\"\n"
    let yearLine :=
      match extract_year (.s (fieldGetD e (str "date") [])) with
      | some y => if y ≠ 0 then str "year: " ++ (toString y).data ++ ['\n'] else []
      | none => []
    let articleExtras :=
      if e.type = str "article" then
        (match fieldGet e (str "volume") with
         | some v => str "volume: \"" ++ v ++ str "\"\n"
         | none => []) ++
        (if (fieldGet e (str "number")).isSome || (fieldGet e (str "issue")).isSome then
           str "issue: \"" ++ fieldGetD e (str "number") (fieldGetD e (str "issue") []) ++
             str "\"\n"
         else []) ++
        (match fieldGet e (str "pages") with
         | some p => str "pages: \"" ++ p ++ str "\"\n"
         | none => [])
      else []
    let nociteLine := str "nocite: \"" ++ e.id ++ str "\"\n"
    let (imagePath, st') := find_or_create_image cfg e st
    let imageLine :=
      match imagePath with
      | some p => str "image: " ++ p ++ ['\n']
      | none => []
    let linksSection :=
      if (fieldGet e (str "doi")).isSome || (fieldGet e (str "repo")).isSome ||
         (fieldGet e (str "preprint")).isSome || (fieldGet e (str "url")).isSome then
        str "  links:\n" ++ linksText e
      else []
    let abstractPart :=
      match fieldGet e (str "abstract") with
      | some a => str "\n\n" ++ a
      | none => []
    (some (str "---\n" ++ titleLine ++ str "author:\n" ++ authLines ++ dateLine ++
       detailsLine ++ yearLine ++ articleExtras ++ nociteLine ++ imageLine ++
       str "\nabout:\n" ++ str "  template: solana\n" ++ linksSection ++
       str "\nformat:\n  html:\n    page-layout: full\n" ++ str "---" ++
       abstractPart ++ str "\n\n:::\x7b#bibliography\x7d\n:::"),
     st')

/- ### Specification-side model of the title transformation -/

/-- A decomposition of a (collapsed) title into alternating plain text and
brace-delimited spans; `flattenSegs` recovers the title. -/
inductive Seg where
  | out (o : Str)
  | span (s : Str)
deriving DecidableEq

/-- The title a segment decomposition denotes. -/
def flattenSegs : List Seg → Str
  | [] => []
  | .out o :: r => o ++ flattenSegs r
  | .span s :: r => '\x7b' :: s ++ ['\x7d'] ++ flattenSegs r

/-- The span texts of a decomposition, in order. -/
def spansOf : List Seg → List Str
  | [] => []
  | .out _ :: r => spansOf r
  | .span s :: r => s :: spansOf r

/-- Index of the first occurrence of a span text in a list. -/
def idxIn (done : List Str) (s : Str) : Nat :=
  match done with
  | [] => 0
  | d :: r => if d = s then 0 else idxIn r s + 1

/-- Rendering of a decomposition in which the spans whose text occurs in
`done` have already been replaced by their placeholder token (the token of
the first list position with that text, matching `str.replace`'s global
replacement), while the remaining spans still carry their braces.  With
`done = spansOf segs` this is the fully placeholder-substituted string the
specification feeds to title-casing. -/
def renderD (done : List Str) : List Seg → Str
  | [] => []
  | .out o :: r => o ++ renderD done r
  | .span s :: r =>
    (if s ∈ done then phTok (idxIn done s) else '\x7b' :: s ++ ['\x7d']) ++ renderD done r

/-- The placeholder string of a decomposition. -/
def phStringOf (segs : List Seg) : Str := renderD (spansOf segs) segs

/-- Ideal substitution of placeholder tokens: each occurrence of `_p`
followed by a digit indexing into `spans` is replaced by the corresponding
span text. -/
def substPH (spans : List Str) : Str → Str
  | [] => []
  | [c] => [c]
  | [c, d] => [c, d]
  | c :: d :: e :: t =>
    if c = '_' && d = 'p' && isDigitC e && decide (e.toNat - 48 < spans.length) then
      spans.getD (e.toNat - 48) [] ++ substPH spans t
    else c :: substPH spans (d :: e :: t)

/-- Every underscore heads a well-formed placeholder token with index below
`n`. -/
def goodPH (n : Nat) : Str → Bool
  | [] => true
  | [c] => c ≠ '_'
  | [c, d] => c ≠ '_' && d ≠ '_'
  | c :: d :: e :: t =>
    if c = '_' then
      d = 'p' && isDigitC e && decide (e.toNat - 48 < n) && goodPH n t
    else goodPH n (d :: e :: t)

/-- The title transformation as the specification describes it: replace each
brace-delimited span by its positional placeholder token, title-case the
resulting text, then substitute each placeholder occurrence back by its
span's original text. -/
def formatTitleSpec (segs : List Seg) : Str :=
  substPH (spansOf segs) (titlecase (phStringOf segs))

/-- Well-formedness of a decomposition under which the `str.replace`-based
placeholder mechanics of `format_title` are collision-free: plain text is
free of opening braces and underscores, span texts are free of braces,
newlines and underscores, the span texts are pairwise distinct, there are at
most ten spans (so the placeholder tokens are single-digit and none is a
prefix of another), and at least one span is present. -/
def goodSegs (segs : List Seg) : Bool :=
  segs.all (fun sg =>
    match sg with
    | .out o => decide ('\x7b' ∉ o) && decide ('_' ∉ o)
    | .span s =>
      decide ('\x7b' ∉ s) && decide ('\x7d' ∉ s) && decide ('\n' ∉ s) &&
        decide ('_' ∉ s)) &&
  (spansOf segs).Nodup && decide ((spansOf segs).length ≤ 10) &&
  !(spansOf segs).isEmpty

/- ### Specification-side model of the YAML escape -/

/-- One-pass description of `escape_yaml_string`: every occurrence of `\&`
becomes `&`, every occurrence of `\:` becomes `:`, all other characters
(including quotes and remaining backslashes) are copied unchanged. -/
def escapeSpec : Str → Str
  | [] => []
  | [c] => [c]
  | c :: d :: t =>
    if c = '\\' && d = '&' then '&' :: escapeSpec t
    else if c = '\\' && d = ':' then ':' :: escapeSpec t
    else c :: escapeSpec (d :: t)

/- ### Infrastructure lemmas for `pyReplace` -/

theorem pyReplaceAux_congr (pat rep : Str) :
    ∀ (n : Nat) (s : Str), s.length ≤ n → ∀ f₁ f₂, s.length ≤ f₁ → s.length ≤ f₂ →
      pyReplaceAux pat rep f₁ s = pyReplaceAux pat rep f₂ s := by
  intro n
  induction n with
  | zero =>
    intro s hs f₁ f₂ _ _
    have : s = [] := List.length_eq_zero.mp (Nat.le_zero.mp hs)
    subst this
    cases f₁ <;> cases f₂ <;> rfl
  | succ n ih =>
    intro s hs f₁ f₂ h₁ h₂
    match s, f₁, f₂ with
    | [], f₁, f₂ => cases f₁ <;> cases f₂ <;> rfl
    | c :: t, 0, _ => simp at h₁
    | c :: t, _, 0 => simp at h₂
    | c :: t, f₁ + 1, f₂ + 1 =>
      simp only [pyReplaceAux]
      by_cases h : pat ≠ [] ∧ pat.isPrefixOf (c :: t)
      · rw [if_pos h, if_pos h]
        have hpat : 1 ≤ pat.length := by
          cases pat with
          | nil => exact absurd rfl h.1
          | cons _ _ => simp
        have hd : ((c :: t).drop pat.length).length ≤ n := by
          simp only [List.length_drop, List.length_cons]
          simp only [List.length_cons] at hs
          omega
        have hd₁ : ((c :: t).drop pat.length).length ≤ f₁ := by
          simp only [List.length_drop, List.length_cons]
          simp only [List.length_cons] at h₁
          omega
        have hd₂ : ((c :: t).drop pat.length).length ≤ f₂ := by
          simp only [List.length_drop, List.length_cons]
          simp only [List.length_cons] at h₂
          omega
        rw [ih _ hd _ _ hd₁ hd₂]
      · rw [if_neg h, if_neg h]
        have ht : t.length ≤ n := by
          simp only [List.length_cons] at hs
          omega
        have ht₁ : t.length ≤ f₁ := by
          simp only [List.length_cons] at h₁
          omega
        have ht₂ : t.length ≤ f₂ := by
          simp only [List.length_cons] at h₂
          omega
        rw [ih _ ht _ _ ht₁ ht₂]

theorem pyReplaceAux_eq (pat rep : Str) (f : Nat) (s : Str) (h : s.length ≤ f) :
    pyReplaceAux pat rep f s = pyReplace s pat rep :=
  pyReplaceAux_congr pat rep s.length s le_rfl f s.length h le_rfl

theorem pyReplace_nil (pat rep : Str) : pyReplace [] pat rep = [] := rfl

theorem pyReplace_pos (pat rep : Str) (c : Char) (t : Str) (hp : pat ≠ [])
    (h : pat.isPrefixOf (c :: t)) :
    pyReplace (c :: t) pat rep = rep ++ pyReplace ((c :: t).drop pat.length) pat rep := by
  show pyReplaceAux pat rep (c :: t).length (c :: t) = _
  simp only [List.length_cons, pyReplaceAux, if_pos (And.intro hp h)]
  congr 1
  apply pyReplaceAux_eq
  have hp1 : 1 ≤ pat.length := List.length_pos.mpr hp
  simp only [List.length_drop, List.length_cons]
  omega

theorem pyReplace_neg (pat rep : Str) (c : Char) (t : Str)
    (h : ¬ pat.isPrefixOf (c :: t)) :
    pyReplace (c :: t) pat rep = c :: pyReplace t pat rep := by
  show pyReplaceAux pat rep (c :: t).length (c :: t) = _
  simp only [List.length_cons, pyReplaceAux]
  rw [if_neg (show ¬(pat ≠ [] ∧ pat.isPrefixOf (c :: t) = true) from fun hc => h hc.2)]
  rfl

theorem isPrefixOf_cons_ne {p c : Char} {ps x : Str} (h : c ≠ p) :
    (p :: ps).isPrefixOf (c :: x) = false := by
  simp only [List.isPrefixOf, Bool.and_eq_false_iff]
  left
  simp [beq_iff_eq]
  exact fun hc => h hc.symm

theorem pyReplace_skip (p : Char) (ps rep : Str) :
    ∀ (a b : Str), (∀ c ∈ a, c ≠ p) →
      pyReplace (a ++ b) (p :: ps) rep = a ++ pyReplace b (p :: ps) rep := by
  intro a
  induction a with
  | nil => intro b _; rfl
  | cons c a' ih =>
    intro b ha
    have hc : c ≠ p := ha c (List.mem_cons_self c a')
    have hnp : ¬ (p :: ps).isPrefixOf (c :: (a' ++ b)) = true := by
      rw [isPrefixOf_cons_ne hc]
      simp
    calc pyReplace ((c :: a') ++ b) (p :: ps) rep
        = pyReplace (c :: (a' ++ b)) (p :: ps) rep := rfl
      _ = c :: pyReplace (a' ++ b) (p :: ps) rep := pyReplace_neg _ _ _ _ hnp
      _ = c :: (a' ++ pyReplace b (p :: ps) rep) := by
          rw [ih b (fun x hx => ha x (List.mem_cons_of_mem c hx))]
      _ = (c :: a') ++ pyReplace b (p :: ps) rep := rfl

/- ### Claim theorems: entry-type directory mapping (C7) -/

/-- C7: the output directory is a total deterministic function of the entry
type alone — `article` to `publications/article`, `inproceedings` to
`publications/conference`, `online` and `preprint` to
`publications/forthcoming`, every other type to `publications/other` — and
each record maps to exactly one output path, the sanitized citekey plus
`.qmd` inside that directory. -/
theorem c7_directory_mapping (e : Entry) (t : Str) :
    entryDirectory (str "article") = str "publications/article" ∧
    entryDirectory (str "inproceedings") = str "publications/conference" ∧
    entryDirectory (str "online") = str "publications/forthcoming" ∧
    entryDirectory (str "preprint") = str "publications/forthcoming" ∧
    (t ∉ [str "article", str "inproceedings", str "online", str "preprint"] →
      entryDirectory t = str "publications/other") ∧
    entry_to_qmd_path e =
      entryDirectory e.type ++ ['/'] ++ citekey_to_string e.id ++ str ".qmd" := by
  refine ⟨by decide, by decide, by decide, by decide, ?_, rfl⟩
  intro h
  simp only [List.mem_cons, List.not_mem_nil, or_false, not_or] at h
  obtain ⟨h1, h2, h3, h4⟩ := h
  simp [entryDirectory, h1, h2, h3, h4]

/-- Witness for C7 at a concrete unlisted entry type and record. -/
theorem c7_witness :
    entryDirectory (str "book") = str "publications/other" ∧
    entry_to_qmd_path ⟨str "book", str "Smith:2020/abc", []⟩ =
      entryDirectory (str "book") ++ ['/'] ++ citekey_to_string (str "Smith:2020/abc") ++
        str ".qmd" :=
  ⟨(c7_directory_mapping ⟨str "book", str "Smith:2020/abc", []⟩ (str "book")).2.2.2.2.1
      (by decide),
   (c7_directory_mapping ⟨str "book", str "Smith:2020/abc", []⟩ (str "book")).2.2.2.2.2⟩

/- ### Claim theorems: date and year handling (C6) -/

/-- C6: `format_date` and `extract_year` never raise — `format_date` appends
`-01-01` exactly when the raw date parses as a bare integer and otherwise
returns its input unchanged, and `extract_year` parses the part before the
first `-` of a string (returning an integer input directly), with `none` on
any parse failure; in particular `extract_year` on `2020-05-01` is `2020`
and on `not-a-date` is `none`. -/
theorem c6_date_year_handling (s : Str) :
    ((pyInt s).isSome → format_date s = s ++ str "-01-01") ∧
    (pyInt s = none → format_date s = s) ∧
    (∀ v : Str, extract_year (.s v) = pyInt (v.takeWhile (· ≠ '-'))) ∧
    (∀ n : Int, extract_year (.int n) = some n) ∧
    extract_year (.s (str "2020-05-01")) = some 2020 ∧
    extract_year (.s (str "not-a-date")) = none := by
  refine ⟨?_, ?_, fun v => rfl, fun n => rfl, by decide, by decide⟩
  · intro h
    cases hp : pyInt s with
    | none => rw [hp] at h; simp at h
    | some _ => simp [format_date, hp]
  · intro h
    simp [format_date, h]

/-- Witness for C6 at concrete parsable and unparsable dates. -/
theorem c6_witness :
    format_date (str "2020") = str "2020" ++ str "-01-01" ∧
    format_date (str "2020-05-01") = str "2020-05-01" :=
  ⟨(c6_date_year_handling (str "2020")).1 (by decide),
   (c6_date_year_handling (str "2020-05-01")).2.1 (by decide)⟩

/- ### Claim theorems: mapper failure (C2) and counter accounting (C3) -/

/-- C2: the claim that the metadata mapper completes on every record without
raising is contradicted by the code — an author string carrying `prefix=`
without `useprefix=` makes `re.search(r"useprefix=([^,]+)", name)` return
`None`, so `.group(1)` raises `AttributeError`.  The embedding evaluates the
mapper at such a record: author formatting yields the error value and the
page is never produced (the run state is returned untouched). -/
theorem c2_mapper_raises_on_prefix_author :
    format_author_name (str "family=Berg, given=Anna, prefix=van") = none ∧
    write_metadata_to_qmd ⟨false, fun _ => false⟩
      ⟨str "article", str "berg2024", [(str "author", str "family=Berg, given=Anna, prefix=van")]⟩
      ⟨[], [], ImageStats.init⟩ =
      (none, ⟨[], [], ImageStats.init⟩) :=
  ⟨rfl, rfl⟩

/-- C3: the claim that exactly one statistics counter is incremented per
record is contradicted by the code — for an eligible record with one failing
PDF source, `create_pdf_thumbnail` increments `failed_thumbnails` and the
fall-through then also increments `no_pdf_sources`, so the counters sum to 2
after processing a single record (contradicting the script's own
`Total publications: sum(IMAGE_STATS.values())` summary line). -/
theorem c3_counters_double_increment :
    (find_or_create_image ⟨true, fun _ => false⟩
        ⟨str "article", str "k", [(str "preprint", str "u1")]⟩
        ⟨[], [], ImageStats.init⟩).2.stats.failed_thumbnails = 1 ∧
    (find_or_create_image ⟨true, fun _ => false⟩
        ⟨str "article", str "k", [(str "preprint", str "u1")]⟩
        ⟨[], [], ImageStats.init⟩).2.stats.no_pdf_sources = 1 ∧
    (find_or_create_image ⟨true, fun _ => false⟩
        ⟨str "article", str "k", [(str "preprint", str "u1")]⟩
        ⟨[], [], ImageStats.init⟩).2.stats.total = 2 :=
  ⟨rfl, rfl, rfl⟩

/- ### Claim theorems: author-name dispatch (C4) -/

/-- C4 counterexample: the claim promises that every author string containing
both `family=` and `given=` tags yields `"given family"` (with the prefix
prepended only under `useprefix=true`), but on
`"family=Berg, given=Anna, prefix=van"` the code raises instead
(`useprefix=` is absent, so the search the script unconditionally performs
fails): the embedded dispatch returns the error value, not
`some "Anna Berg"`. -/
theorem c4_counterexample :
    format_author_name_core (str "family=Berg, given=Anna, prefix=van") = none ∧
    format_author_name_core (str "family=Berg, given=Anna, prefix=van") ≠
      some (str "Anna Berg") := by
  exact ⟨rfl, by decide⟩

/-- C4 (amended): the dispatch behaves as claimed whenever the pattern
matches the script performs all succeed — if the name contains `family=` and
`given=` and both value searches succeed, then without `prefix=` the result
is `"given family"`, and with `prefix=` (and both `prefix=`/`useprefix=`
searches succeeding) the prefix value is prepended to the family name exactly
when the `useprefix` value is `"true"`; else a name with a comma is split at
its first comma and reordered to `"given family"`; else it passes through
unchanged.  When a required search fails the function raises instead. -/
theorem c4_dispatch_amended (name fam giv pfx upfx : Str) :
    ((containsSub name (str "family=") && containsSub name (str "given=")) = true →
      searchKV (str "family") name = some fam →
      searchKV (str "given") name = some giv →
      ((containsSub name (str "prefix=") = false →
         format_author_name_core name = some (pyStrip giv ++ [' '] ++ pyStrip fam)) ∧
       (containsSub name (str "prefix=") = true →
         searchKV (str "prefix") name = some pfx →
         searchKV (str "useprefix") name = some upfx →
         format_author_name_core name =
           some (pyStrip giv ++ [' '] ++
             (if pyStrip upfx = str "true" then pyStrip pfx ++ [' '] ++ pyStrip fam
              else pyStrip fam))))) ∧
    ((containsSub name (str "family=") && containsSub name (str "given=")) = false →
      containsSub name [','] = true →
      format_author_name_core name =
        some (pyStrip (pySplitOnce name ',').2 ++ [' '] ++ pyStrip (pySplitOnce name ',').1)) ∧
    ((containsSub name (str "family=") && containsSub name (str "given=")) = false →
      containsSub name [','] = false →
      format_author_name_core name = some name) := by
  refine ⟨?_, ?_, ?_⟩
  · intro hfg hf hg
    constructor
    · intro hp
      simp [format_author_name_core, hfg, hf, hg, hp]
    · intro hp hpf hupf
      simp [format_author_name_core, hfg, hf, hg, hp, hpf, hupf]
  · intro hfg hc
    simp [format_author_name_core, hfg, hc, pySplitOnce]
  · intro hfg hc
    simp [format_author_name_core, hfg, hc]

/-- Witness for C4 at a concrete comma-shaped author string. -/
theorem c4_witness :
    format_author_name_core (str "Lu, Yuchen") =
      some (pyStrip (pySplitOnce (str "Lu, Yuchen") ',').2 ++ [' '] ++
        pyStrip (pySplitOnce (str "Lu, Yuchen") ',').1) :=
  (c4_dispatch_amended (str "Lu, Yuchen") [] [] [] []).2.1 (by decide) (by decide)

/- ### Claim theorems: author emphasis (C5) -/

/-- C5: for every formatted author name, the emphasis is strong exactly on an
exact or hyphen-insensitive match with the configured self-identity name (so
`"James DossGollin"` matches `"James Doss-Gollin"`), otherwise italic exactly
on membership in the configured group roster, otherwise the name is left
plain. -/
theorem c5_emphasis_classification (name n : Str)
    (h : format_author_name_core name = some n) :
    (format_author_name name = some (str "**" ++ n ++ str "**") ↔
      (n = SELF_NAME ∨ dehyphen n = dehyphen SELF_NAME)) ∧
    (format_author_name name = some (['*'] ++ n ++ ['*']) ↔
      (¬(n = SELF_NAME ∨ dehyphen n = dehyphen SELF_NAME) ∧ n ∈ GROUP_MEMBERS)) ∧
    (format_author_name name = some n ↔
      (¬(n = SELF_NAME ∨ dehyphen n = dehyphen SELF_NAME) ∧ n ∉ GROUP_MEMBERS)) := by
  have hf : format_author_name name = some (emphasisWrap n) := by
    rw [format_author_name, h, Option.map_some']
  rw [hf]
  have l2 : (str "**").length = 2 := rfl
  have l1 : (['*'] : Str).length = 1 := rfl
  unfold emphasisWrap
  split_ifs with h1 h2
  · rw [Bool.or_eq_true, decide_eq_true_eq, decide_eq_true_eq] at h1
    refine ⟨⟨fun _ => h1, fun _ => rfl⟩, ⟨?_, ?_⟩, ⟨?_, ?_⟩⟩
    · intro heq
      exfalso
      have := congrArg List.length (Option.some.inj heq)
      simp only [List.length_append, l2, l1] at this
      omega
    · rintro ⟨hns, _⟩
      exact absurd h1 hns
    · intro heq
      exfalso
      have := congrArg List.length (Option.some.inj heq)
      simp only [List.length_append, l2] at this
      omega
    · rintro ⟨hns, _⟩
      exact absurd h1 hns
  · rw [Bool.or_eq_true, decide_eq_true_eq, decide_eq_true_eq] at h1
    refine ⟨⟨?_, fun hc => absurd hc h1⟩, ⟨fun _ => ⟨h1, h2⟩, fun _ => rfl⟩, ⟨?_, ?_⟩⟩
    · intro heq
      exfalso
      have := congrArg List.length (Option.some.inj heq)
      simp only [List.length_append, l2, l1] at this
      omega
    · intro heq
      exfalso
      have := congrArg List.length (Option.some.inj heq)
      simp only [List.length_append, l1] at this
      omega
    · rintro ⟨_, hnm⟩
      exact absurd h2 hnm
  · rw [Bool.or_eq_true, decide_eq_true_eq, decide_eq_true_eq] at h1
    refine ⟨⟨?_, fun hc => absurd hc h1⟩, ⟨?_, ?_⟩, ⟨fun _ => ⟨h1, h2⟩, fun _ => rfl⟩⟩
    · intro heq
      exfalso
      have := congrArg List.length (Option.some.inj heq)
      simp only [List.length_append, l2] at this
      omega
    · intro heq
      exfalso
      have := congrArg List.length (Option.some.inj heq)
      simp only [List.length_append, l1] at this
      omega
    · rintro ⟨_, hm⟩
      exact absurd hm h2

/-- Witness for C5: the hyphen-stripped variant of the self name is marked
strong. -/
theorem c5_witness :
    format_author_name (str "DossGollin, James") =
      some (str "**" ++ str "James DossGollin" ++ str "**") :=
  ((c5_emphasis_classification (str "DossGollin, James") (str "James DossGollin")
      (by decide)).1).mpr (Or.inr (by decide))

/- ### Claim theorems: links assembly (C8) -/

/-- C8: the links list is built in the fixed order DOI-or-URL, repository,
preprint; a DOI link and a bare URL link are never both emitted (the DOI
wins), whichever is emitted carries the open-access badge exactly when the
`open` field is the literal string `"true"`, and the repository and preprint
links are appended independently exactly when their fields are present. -/
theorem c8_links_assembly (e : Entry) :
    linksFor e = doiOrUrlLinks e ++ repoLinks e ++ preprintLinks e ∧
    (∀ d, fieldGet e (str "doi") = some d →
      doiOrUrlLinks e =
        [⟨str "DOI: " ++ d ++
            (if fieldGetD e (str "open") [] = str "true" then str " (Open Access)" else []),
          str "https://doi.org/" ++ d, str "link"⟩]) ∧
    (∀ u, fieldGet e (str "doi") = none → fieldGet e (str "url") = some u →
      doiOrUrlLinks e =
        [⟨(if fieldGetD e (str "open") [] = str "true" then str "Open Access" else str "Link"),
          u, str "link"⟩]) ∧
    (fieldGet e (str "doi") = none → fieldGet e (str "url") = none →
      doiOrUrlLinks e = []) ∧
    (∀ r, fieldGet e (str "repo") = some r →
      repoLinks e = [⟨str "Code", r, str "github"⟩]) ∧
    (fieldGet e (str "repo") = none → repoLinks e = []) ∧
    (∀ p, fieldGet e (str "preprint") = some p →
      preprintLinks e = [⟨str "Preprint", p, str "file-pdf"⟩]) ∧
    (fieldGet e (str "preprint") = none → preprintLinks e = []) := by
  refine ⟨rfl, ?_, ?_, ?_, ?_, ?_, ?_, ?_⟩
  · intro d hd
    simp [doiOrUrlLinks, hd]
  · intro u hd hu
    simp [doiOrUrlLinks, hd, hu]
  · intro hd hu
    simp [doiOrUrlLinks, hd, hu]
  · intro r hr
    simp [repoLinks, hr]
  · intro hr
    simp [repoLinks, hr]
  · intro p hp
    simp [preprintLinks, hp]
  · intro hp
    simp [preprintLinks, hp]

/-- Witness for C8 at a record with every link-relevant field present. -/
theorem c8_witness :
    doiOrUrlLinks ⟨str "article", str "k",
        [(str "doi", str "10.1/x"), (str "url", str "https://u"),
         (str "repo", str "https://r"), (str "preprint", str "https://p"),
         (str "open", str "true")]⟩ =
      [⟨str "DOI: " ++ str "10.1/x" ++
          (if fieldGetD ⟨str "article", str "k",
              [(str "doi", str "10.1/x"), (str "url", str "https://u"),
               (str "repo", str "https://r"), (str "preprint", str "https://p"),
               (str "open", str "true")]⟩ (str "open") [] = str "true"
           then str " (Open Access)" else []),
        str "https://doi.org/" ++ str "10.1/x", str "link"⟩] :=
  (c8_links_assembly _).2.1 (str "10.1/x") (by decide)

/- ### Claim theorems: image resolution idempotence (C9) -/

theorem create_pdf_thumbnail_true_fs (cfg : RunCfg) (u tp : Str) (st st1 : RunState)
    (h : create_pdf_thumbnail cfg u tp st = (true, st1)) : st1.fs = tp :: st.fs := by
  unfold create_pdf_thumbnail at h
  split_ifs at h with h1 h2 h3
  · exact absurd (congrArg Prod.fst h) (by simp)
  · exact absurd (congrArg Prod.fst h) (by simp)
  · have h2 := congrArg Prod.snd h
    simp only at h2
    rw [← h2]
  · exact absurd (congrArg Prod.fst h) (by simp)

theorem tryPdfUrls_some (cfg : RunCfg) (tp : Str) :
    ∀ (urls : List Str) (st : RunState) (p : Str) (st' : RunState),
      tryPdfUrls cfg tp st urls = (some p, st') →
      p = str "../../" ++ tp ∧ tp ∈ st'.fs := by
  intro urls
  induction urls with
  | nil =>
    intro st p st' h
    exact absurd h (by simp [tryPdfUrls])
  | cons u rest ih =>
    intro st p st' h
    unfold tryPdfUrls at h
    cases hcr : create_pdf_thumbnail cfg u tp st with
    | mk b st1 =>
      rw [hcr] at h
      cases b with
      | true =>
        have h1 := congrArg Prod.fst h
        have h2 := congrArg Prod.snd h
        simp only at h1 h2
        have hfs := create_pdf_thumbnail_true_fs cfg u tp st st1 hcr
        refine ⟨(Option.some.inj h1).symm, ?_⟩
        rw [← h2, hfs]
        exact List.mem_cons_self tp st.fs
      | false =>
        exact ih st1 p st' h

/-- C9: image resolution is idempotent — when the filesystem already holds an
image at the deterministic citekey-derived path (extensions tried in order
png, jpg, jpeg), resolution returns that existing image and performs no
generation (only the existing-image counter moves); and when a run starting
without such an image returns a generated thumbnail, the thumbnail file is on
disk afterwards, so a second resolution returns `ExistingImage` for the png
path without regenerating. -/
theorem c9_image_resolution_idempotent (cfg : RunCfg) (e : Entry) (st : RunState) :
    (∀ p, probeExisting st.fs (citekey_to_string e.id) imageExts = some p →
      find_or_create_image cfg e st =
        (some (str "../../" ++ p),
         { st with stats := { st.stats with
             existing_images := st.stats.existing_images + 1 } })) ∧
    (probeExisting st.fs (citekey_to_string e.id) imageExts = none →
      ∀ p st', find_or_create_image cfg e st = (some p, st') →
        p = str "../../" ++ imageAssetPath (citekey_to_string e.id) (str "png") ∧
        imageAssetPath (citekey_to_string e.id) (str "png") ∈ st'.fs ∧
        find_or_create_image cfg e st' =
          (some (str "../../" ++ imageAssetPath (citekey_to_string e.id) (str "png")),
           { st' with stats := { st'.stats with
               existing_images := st'.stats.existing_images + 1 } })) := by
  constructor
  · intro p hp
    simp only [find_or_create_image, hp]
  · intro hnone p st' hrun
    simp only [find_or_create_image, hnone] at hrun
    by_cases helig : e.type ∉ [str "article", str "online", str "preprint"]
    · rw [if_pos helig] at hrun
      exact absurd (congrArg Prod.fst hrun) (by simp)
    · rw [if_neg helig] at hrun
      cases htry : tryPdfUrls cfg (imageAssetPath (citekey_to_string e.id) (str "png"))
          st (pdfUrlCandidates e) with
    | mk r st1 =>
      rw [htry] at hrun
      cases r with
      | none => exact absurd (congrArg Prod.fst hrun) (by simp)
      | some q =>
        have h1 := congrArg Prod.fst hrun
        have h2 := congrArg Prod.snd hrun
        simp only at h1 h2
        obtain ⟨hq, hmem⟩ := tryPdfUrls_some cfg _ _ _ _ _ htry
        have hp : p = str "../../" ++ imageAssetPath (citekey_to_string e.id) (str "png") := by
          rw [← Option.some.inj h1, hq]
        have hmem' : imageAssetPath (citekey_to_string e.id) (str "png") ∈ st'.fs := by
          rw [← h2]
          exact hmem
        refine ⟨hp, hmem', ?_⟩
        have hprobe : probeExisting st'.fs (citekey_to_string e.id) imageExts =
            some (imageAssetPath (citekey_to_string e.id) (str "png")) := by
          simp [probeExisting, imageExts, hmem']
        simp only [find_or_create_image, hprobe]

/-- Witness for C9: with a succeeding fetch oracle, a first run generates the
thumbnail and a second run on the resulting state returns the existing
image. -/
theorem c9_witness :
    find_or_create_image ⟨true, fun _ => true⟩
        ⟨str "article", str "k", [(str "preprint", str "u1")]⟩
        ⟨[str "_assets/img/pubs/k.png"], [], ⟨0, 1, 0, 0, 0⟩⟩ =
      (some (str "../../" ++ imageAssetPath (citekey_to_string (str "k")) (str "png")),
       { fs := [str "_assets/img/pubs/k.png"], memo := [],
         stats := ⟨1, 1, 0, 0, 0⟩ }) := by
  have h := (c9_image_resolution_idempotent ⟨true, fun _ => true⟩
      ⟨str "article", str "k", [(str "preprint", str "u1")]⟩
      ⟨[], [], ImageStats.init⟩).2 (by decide)
      (str "../../_assets/img/pubs/k.png")
      ⟨[str "_assets/img/pubs/k.png"], [], ⟨0, 1, 0, 0, 0⟩⟩ (by decide)
  exact h.2.2

/- ### Claim theorems: YAML escaping (C10) -/

theorem strAmpPat : str "\\&" = ['\\', '&'] := rfl

theorem strColonPat : str "\\:" = ['\\', ':'] := rfl

theorem strAmpRep : str "&" = ['&'] := rfl

theorem strColonRep : str ":" = [':'] := rfl

theorem escapeSpec_amp (t : Str) : escapeSpec ('\\' :: '&' :: t) = '&' :: escapeSpec t := by
  simp [escapeSpec]

theorem escapeSpec_colon (t : Str) : escapeSpec ('\\' :: ':' :: t) = ':' :: escapeSpec t := by
  simp [escapeSpec]

theorem escapeSpec_ne (c : Char) (t : Str) (h : c ≠ '\\') :
    escapeSpec (c :: t) = c :: escapeSpec t := by
  cases t with
  | nil => rfl
  | cons d t' => simp [escapeSpec, h]

theorem escapeSpec_backslash_other (d : Char) (t : Str) (h1 : d ≠ '&') (h2 : d ≠ ':') :
    escapeSpec ('\\' :: d :: t) = '\\' :: escapeSpec (d :: t) := by
  simp [escapeSpec, h1, h2]

theorem not_bs_prefix_head (ps : Str) (c : Char) (x : Str) (h : c ≠ '\\') :
    ¬ ('\\' :: ps).isPrefixOf (c :: x) = true := by
  rw [isPrefixOf_cons_ne h]
  simp

theorem not_bs_prefix_second (q d : Char) (x : Str) (h : d ≠ q) :
    ¬ ('\\' :: [q]).isPrefixOf ('\\' :: d :: x) = true := by
  simp only [List.isPrefixOf, Bool.and_eq_true, beq_iff_eq]
  rintro ⟨-, hq, -⟩
  exact h hq.symm

theorem escape_eq_spec_aux :
    ∀ (n : Nat) (s : Str), s.length ≤ n → escape_yaml_string s = escapeSpec s := by
  intro n
  induction n with
  | zero =>
    intro s hs
    have : s = [] := List.length_eq_zero.mp (Nat.le_zero.mp hs)
    subst this
    rfl
  | succ n ih =>
    intro s hs
    cases s with
    | nil => rfl
    | cons c t =>
      have hlt : t.length ≤ n := by
        simp only [List.length_cons] at hs
        omega
      by_cases hc : c = '\\'
      · subst hc
        cases t with
        | nil => rfl
        | cons d t' =>
          have hlt' : t'.length ≤ n := by
            simp only [List.length_cons] at hlt
            omega
          by_cases hd1 : d = '&'
          · subst hd1
            have iht := ih t' hlt'
            unfold escape_yaml_string at iht ⊢
            rw [strAmpPat, strColonPat, strAmpRep, strColonRep] at iht ⊢
            rw [pyReplace_pos _ _ _ _ (by simp) (by simp [List.isPrefixOf])]
            rw [show List.drop (List.length (['\\', '&'] : Str)) ('\\' :: '&' :: t') = t'
              from rfl]
            rw [show (['&'] : Str) ++ pyReplace t' ['\\', '&'] ['&'] =
              '&' :: pyReplace t' ['\\', '&'] ['&'] from rfl]
            rw [pyReplace_neg _ _ _ _ (not_bs_prefix_head [':'] '&' _ (by decide))]
            rw [iht, escapeSpec_amp]
          · by_cases hd2 : d = ':'
            · subst hd2
              have iht := ih t' hlt'
              unfold escape_yaml_string at iht ⊢
              rw [strAmpPat, strColonPat, strAmpRep, strColonRep] at iht ⊢
              rw [pyReplace_neg _ _ _ _ (not_bs_prefix_second '&' ':' _ (by decide))]
              rw [pyReplace_neg _ _ _ _ (not_bs_prefix_head ['&'] ':' _ (by decide))]
              rw [pyReplace_pos _ _ _ _ (by simp) (by simp [List.isPrefixOf])]
              rw [show List.drop (List.length (['\\', ':'] : Str))
                  ('\\' :: ':' :: pyReplace t' ['\\', '&'] ['&']) =
                  pyReplace t' ['\\', '&'] ['&'] from rfl]
              rw [show ([':'] : Str) ++
                  pyReplace (pyReplace t' ['\\', '&'] ['&']) ['\\', ':'] [':'] =
                  ':' :: pyReplace (pyReplace t' ['\\', '&'] ['&']) ['\\', ':'] [':']
                from rfl]
              rw [iht, escapeSpec_colon]
            · have iht := ih (d :: t') hlt
              unfold escape_yaml_string at iht ⊢
              rw [strAmpPat, strColonPat, strAmpRep, strColonRep] at iht ⊢
              rw [pyReplace_neg _ _ _ _ (not_bs_prefix_second '&' d _ hd1)]
              have hne2 : ¬ (['\\', ':'] : Str).isPrefixOf
                  ('\\' :: pyReplace (d :: t') ['\\', '&'] ['&']) = true := by
                by_cases hp : (['\\', '&'] : Str).isPrefixOf (d :: t') = true
                · rw [pyReplace_pos _ _ _ _ (by simp) hp]
                  exact not_bs_prefix_second ':' '&' _ (by decide)
                · rw [pyReplace_neg _ _ _ _ hp]
                  exact not_bs_prefix_second ':' d _ hd2
              rw [pyReplace_neg _ _ _ _ hne2]
              rw [iht, escapeSpec_backslash_other d t' hd1 hd2]
      · have iht := ih t hlt
        unfold escape_yaml_string at iht ⊢
        rw [strAmpPat, strColonPat, strAmpRep, strColonRep] at iht ⊢
        rw [pyReplace_neg _ _ _ _ (not_bs_prefix_head ['&'] c _ hc)]
        rw [pyReplace_neg _ _ _ _ (not_bs_prefix_head [':'] c _ hc)]
        rw [iht, escapeSpec_ne c t hc]

theorem escape_eq_spec (s : Str) : escape_yaml_string s = escapeSpec s :=
  escape_eq_spec_aux s.length s le_rfl

/-- C10: `escape_yaml_string` — applied to the title and details values
before they are written into the quoted metadata lines — replaces every
occurrence of `\&` by `&` and every occurrence of `\:` by `:`, and leaves
every other character, double quotes and remaining backslashes included,
unchanged; the emitted title and details lines are built from exactly this
escape (composed with title formatting) and no other escaping. -/
theorem c10_yaml_escape (s : Str) (cfg : RunCfg) (e : Entry) (st : RunState) :
    escape_yaml_string s = escapeSpec s ∧
    (∀ out st', write_metadata_to_qmd cfg e st = (some out, st') →
      ∃ authLines rest, out = str "---\n" ++ str "title: \"" ++
        format_title (escape_yaml_string (fieldGetD e (str "title") [])) ++ str "\"\n" ++
        str "author:\n" ++ authLines ++ str "date: " ++
        format_date (fieldGetD e (str "date") []) ++ ['\n'] ++ str "details: \"" ++
        format_title (escape_yaml_string (get_details_from_entry e)) ++ str "\"\n" ++
        rest) := by
  refine ⟨escape_eq_spec s, ?_⟩
  intro out st' h
  cases hal : authorLines (pySplit (fieldGetD e (str "author") []) (str " and ")) with
  | none =>
    simp only [write_metadata_to_qmd, hal] at h
    exact absurd (congrArg Prod.fst h) (by simp)
  | some al =>
    cases hfind : find_or_create_image cfg e st with
    | mk ip st2 =>
      simp only [write_metadata_to_qmd, hal, hfind] at h
      have hout : _ = out := Option.some.inj (congrArg Prod.fst h)
      subst hout
      clear h hfind hal
      refine ⟨al,
        (match extract_year (PyVal.s (fieldGetD e (str "date") [])) with
          | some y => if y ≠ 0 then str "year: " ++ (toString y).data ++ ['\n'] else []
          | none => []) ++
        (if e.type = str "article" then
            (match fieldGet e (str "volume") with
              | some v => str "volume: \"" ++ v ++ str "\"\n"
              | none => []) ++
            (if ((fieldGet e (str "number")).isSome || (fieldGet e (str "issue")).isSome) = true
              then str "issue: \"" ++ fieldGetD e (str "number") (fieldGetD e (str "issue") []) ++
                str "\"\n"
              else []) ++
            (match fieldGet e (str "pages") with
              | some p => str "pages: \"" ++ p ++ str "\"\n"
              | none => [])
          else []) ++
        (str "nocite: \"" ++ e.id ++ str "\"\n") ++
        (match ip with
          | some p => str "image: " ++ p ++ ['\n']
          | none => []) ++
        str "\nabout:\n" ++ str "  template: solana\n" ++
        (if ((fieldGet e (str "doi")).isSome || (fieldGet e (str "repo")).isSome ||
              (fieldGet e (str "preprint")).isSome || (fieldGet e (str "url")).isSome) = true
          then str "  links:\n" ++ linksText e
          else []) ++
        str "\nformat:\n  html:\n    page-layout: full\n" ++ str "---" ++
        (match fieldGet e (str "abstract") with
          | some a => str "\n\n" ++ a
          | none => []) ++
        str "\n\n:::\x7b#bibliography\x7d\n:::", ?_⟩
      simp only [List.append_assoc]

/-- Witness for C10 at a concrete string and a concrete record. -/
theorem c10_witness :
    escape_yaml_string (str "a\\&b \\: \"c\\d\"") = escapeSpec (str "a\\&b \\: \"c\\d\"") ∧
    (∃ authLines rest,
      str "---\ntitle: \"\"\nauthor:\n  - \ndate: \ndetails: \"\"\nnocite: \"k\"\n\nabout:\n  template: solana\n\nformat:\n  html:\n    page-layout: full\n---\n\n:::\x7b#bibliography\x7d\n:::" =
        str "---\n" ++ str "title: \"" ++
        format_title (escape_yaml_string (fieldGetD ⟨str "misc", str "k", []⟩ (str "title") [])) ++
        str "\"\n" ++ str "author:\n" ++ authLines ++ str "date: " ++
        format_date (fieldGetD ⟨str "misc", str "k", []⟩ (str "date") []) ++ ['\n'] ++
        str "details: \"" ++
        format_title (escape_yaml_string (get_details_from_entry ⟨str "misc", str "k", []⟩)) ++
        str "\"\n" ++ rest) :=
  ⟨(c10_yaml_escape (str "a\\&b \\: \"c\\d\"") ⟨false, fun _ => false⟩
      ⟨str "misc", str "k", []⟩ ⟨[], [], ImageStats.init⟩).1,
   (c10_yaml_escape (str "a\\&b \\: \"c\\d\"") ⟨false, fun _ => false⟩
      ⟨str "misc", str "k", []⟩ ⟨[], [], ImageStats.init⟩).2 _ ⟨[], [], ⟨0, 0, 0, 0, 1⟩⟩ rfl⟩

/- ### Title formatting (C1): character and token facts -/

theorem charToNat_inj (a b : Char) (h : a.toNat = b.toNat) : a = b :=
  Char.ext (UInt32.ext h)

theorem charOfNat_toNat (n : Nat) (h : n < 55296) : (Char.ofNat n).toNat = n := by
  have hv : n.isValidChar := Or.inl h
  simp [Char.ofNat, hv]
  rfl

theorem phTok_lt10 : ∀ i, i < 10 → phTok i = ['_', 'p', Nat.digitChar i] := by decide

theorem digitChar_facts : ∀ j, j < 10 →
    isDigitC (Nat.digitChar j) = true ∧ (Nat.digitChar j).toNat - 48 = j ∧
    Nat.digitChar j ≠ '\x7b' ∧ Nat.digitChar j ≠ '_' := by decide

theorem digitChar_roundtrip (c : Char) (h : isDigitC c = true) :
    Nat.digitChar (c.toNat - 48) = c := by
  simp only [isDigitC, Bool.and_eq_true, decide_eq_true_eq] at h
  apply charToNat_inj
  have h10 : c.toNat - 48 < 10 := by omega
  have hv : ∀ j, j < 10 → (Nat.digitChar j).toNat = 48 + j := by decide
  rw [hv _ h10]
  omega

theorem isDigitC_lt10 (c : Char) (h : isDigitC c = true) : c.toNat - 48 < 10 := by
  simp only [isDigitC, Bool.and_eq_true, decide_eq_true_eq] at h
  omega

theorem isDigitC_ne_underscore (c : Char) (h : isDigitC c = true) : c ≠ '_' := by
  simp only [isDigitC, Bool.and_eq_true, decide_eq_true_eq] at h
  intro hc
  subst hc
  rw [show ('_').toNat = 95 from rfl] at h
  omega

theorem asciiLower_ne_underscore (c : Char) (h : c ≠ '_') : asciiLower c ≠ '_' := by
  unfold asciiLower
  split_ifs with hr
  · simp only [Bool.and_eq_true, decide_eq_true_eq] at hr
    intro hc
    have hn := congrArg Char.toNat hc
    rw [charOfNat_toNat _ (by omega)] at hn
    rw [show ('_').toNat = 95 from rfl] at hn
    omega
  · exact h

theorem asciiUpper_ne_underscore (c : Char) (h : c ≠ '_') : asciiUpper c ≠ '_' := by
  unfold asciiUpper
  split_ifs with hr
  · simp only [Bool.and_eq_true, decide_eq_true_eq] at hr
    intro hc
    have hn := congrArg Char.toNat hc
    rw [charOfNat_toNat _ (by omega)] at hn
    rw [show ('_').toNat = 95 from rfl] at hn
    omega
  · exact h

theorem asciiLower_digit (c : Char) (h : isDigitC c = true) : asciiLower c = c := by
  simp only [isDigitC, Bool.and_eq_true, decide_eq_true_eq] at h
  unfold asciiLower
  rw [if_neg]
  simp only [Bool.and_eq_true, decide_eq_true_eq, not_and]
  omega

theorem asciiUpper_digit (c : Char) (h : isDigitC c = true) : asciiUpper c = c := by
  simp only [isDigitC, Bool.and_eq_true, decide_eq_true_eq] at h
  unfold asciiUpper
  rw [if_neg]
  simp only [Bool.and_eq_true, decide_eq_true_eq, not_and]
  omega

/- ### Title formatting (C1): index bookkeeping -/

theorem idxIn_cons (d : Str) (r : List Str) (s : Str) :
    idxIn (d :: r) s = if d = s then 0 else idxIn r s + 1 := rfl

theorem idxIn_lt_of_mem (s : Str) :
    ∀ done : List Str, s ∈ done → idxIn done s < done.length := by
  intro done
  induction done with
  | nil => intro h; cases h
  | cons d r ih =>
    intro h
    rw [idxIn_cons]
    split_ifs with hd
    · simp
    · have hs : s ∈ r := by
        cases List.mem_cons.mp h with
        | inl he => exact absurd he.symm hd
        | inr hr => exact hr
      simp only [List.length_cons]
      exact Nat.succ_lt_succ (ih hs)

theorem idxIn_append_of_mem (s x : Str) :
    ∀ done : List Str, s ∈ done → idxIn (done ++ [x]) s = idxIn done s := by
  intro done
  induction done with
  | nil => intro h; cases h
  | cons d r ih =>
    intro h
    rw [List.cons_append, idxIn_cons, idxIn_cons]
    split_ifs with hd
    · rfl
    · have hs : s ∈ r := by
        cases List.mem_cons.mp h with
        | inl he => exact absurd he.symm hd
        | inr hr => exact hr
      rw [ih hs]

theorem idxIn_append_self (s : Str) :
    ∀ done : List Str, s ∉ done → idxIn (done ++ [s]) s = done.length := by
  intro done
  induction done with
  | nil => intro _; simp [idxIn]
  | cons d r ih =>
    intro h
    have hd : d ≠ s := fun he => h (he ▸ List.mem_cons_self d r)
    have hs : s ∉ r := fun hr => h (List.mem_cons_of_mem d hr)
    rw [List.cons_append, idxIn_cons, if_neg hd, ih hs]
    rfl

/- ### Title formatting (C1): prefix facts -/

theorem isPrefixOf_append_self : ∀ (x u : Str), x.isPrefixOf (x ++ u) = true := by
  intro x
  induction x with
  | nil =>
    intro u
    rw [List.nil_append]
    cases u <;> rfl
  | cons c t ih =>
    intro u
    simp only [List.cons_append, List.isPrefixOf, beq_self_eq_true, Bool.true_and]
    exact ih u

theorem brace_prefix_eq : ∀ (sa sb rest : Str), '\x7d' ∉ sa → '\x7d' ∉ sb →
    (sa ++ ['\x7d']).isPrefixOf (sb ++ '\x7d' :: rest) = true → sa = sb := by
  intro sa
  induction sa with
  | nil =>
    intro sb rest _ hb h
    cases sb with
    | nil => rfl
    | cons b sb' =>
      simp only [List.nil_append, List.cons_append, List.isPrefixOf, Bool.and_eq_true,
        beq_iff_eq] at h
      exact absurd h.1.symm (fun hc => hb (hc ▸ List.mem_cons_self b sb'))
  | cons a sa' ih =>
    intro sb rest ha hb h
    cases sb with
    | nil =>
      simp only [List.cons_append, List.nil_append, List.isPrefixOf, Bool.and_eq_true,
        beq_iff_eq] at h
      exact absurd h.1 (fun hc => ha (hc ▸ List.mem_cons_self a sa'))
    | cons b sb' =>
      simp only [List.cons_append, List.isPrefixOf, Bool.and_eq_true, beq_iff_eq] at h
      have ha' : '\x7d' ∉ sa' := fun hm => ha (List.mem_cons_of_mem a hm)
      have hb' : '\x7d' ∉ sb' := fun hm => hb (List.mem_cons_of_mem b hm)
      rw [h.1, ih sb' rest ha' hb' h.2]

theorem brace_pat_mismatch (sa sb rest : Str) (ha : '\x7d' ∉ sa) (hb : '\x7d' ∉ sb)
    (hne : sa ≠ sb) :
    ¬ ('\x7b' :: (sa ++ ['\x7d'])).isPrefixOf ('\x7b' :: (sb ++ '\x7d' :: rest)) = true := by
  intro h
  simp only [List.isPrefixOf, Bool.and_eq_true, beq_self_eq_true, true_and] at h
  exact hne (brace_prefix_eq sa sb rest ha hb h)

/- ### Title formatting (C1): goodPH and substPH equations -/

theorem goodPH_cons_ne (n : Nat) (c : Char) (t : Str) (h : c ≠ '_') :
    goodPH n (c :: t) = goodPH n t := by
  match t with
  | [] => simp [goodPH, h]
  | [d] => simp [goodPH, h]
  | d :: e :: t' => simp [goodPH, h]

theorem goodPH_tok (n : Nat) (e : Char) (t : Str) :
    goodPH n ('_' :: 'p' :: e :: t) =
      (isDigitC e && (decide (e.toNat - 48 < n) && goodPH n t)) := by
  simp [goodPH, Bool.and_assoc]

theorem goodPH_cons_inv (n : Nat) (c : Char) (t : Str) (h : goodPH n (c :: t) = true) :
    (c ≠ '_' ∧ goodPH n t = true) ∨
    (c = '_' ∧ ∃ e t', t = 'p' :: e :: t' ∧ isDigitC e = true ∧ e.toNat - 48 < n ∧
      goodPH n t' = true) := by
  by_cases hc : c = '_'
  · subst hc
    right
    refine ⟨rfl, ?_⟩
    match t with
    | [] => simp [goodPH] at h
    | [d] => simp [goodPH] at h
    | d :: e :: t' =>
      simp only [goodPH, if_true, Bool.and_eq_true, decide_eq_true_eq] at h
      obtain ⟨⟨⟨hdp, hde⟩, hlt⟩, hg⟩ := h
      exact ⟨e, t', by rw [hdp], hde, hlt, hg⟩
  · left
    exact ⟨hc, by rw [← goodPH_cons_ne n c t hc]; exact h⟩

theorem substPH_tok (spans : List Str) (e : Char) (t : Str) (hd : isDigitC e = true)
    (hlt : e.toNat - 48 < spans.length) :
    substPH spans ('_' :: 'p' :: e :: t) =
      spans.getD (e.toNat - 48) [] ++ substPH spans t := by
  simp [substPH, hd, hlt]

theorem substPH_cons_ne (spans : List Str) (c : Char) (t : Str) (h : c ≠ '_') :
    substPH spans (c :: t) = c :: substPH spans t := by
  match t with
  | [] => rfl
  | [d] => rfl
  | d :: e :: t' => simp [substPH, h]

/- ### Title formatting (C1): findall parsing -/

theorem scanSpan_append (sp : Str) :
    ∀ rest, '\x7d' ∉ sp → '\n' ∉ sp → scanSpan (sp ++ '\x7d' :: rest) = some (sp, rest) := by
  induction sp with
  | nil =>
    intro rest _ _
    simp [scanSpan]
  | cons c t ih =>
    intro rest hb hn
    have hc1 : c ≠ '\x7d' := fun h => hb (h ▸ List.mem_cons_self c t)
    have hc2 : c ≠ '\n' := fun h => hn (h ▸ List.mem_cons_self c t)
    have hb' : '\x7d' ∉ t := fun h => hb (List.mem_cons_of_mem c h)
    have hn' : '\n' ∉ t := fun h => hn (List.mem_cons_of_mem c h)
    rw [List.cons_append]
    simp [scanSpan, hc1, hc2, ih rest hb' hn']

theorem scanSpan_shrink : ∀ (t sp rest : Str), scanSpan t = some (sp, rest) →
    rest.length < t.length := by
  intro t
  induction t with
  | nil => intro sp rest h; simp [scanSpan] at h
  | cons c r ih =>
    intro sp rest h
    simp only [scanSpan] at h
    split_ifs at h with h1 h2
    · simp only [Option.some.injEq, Prod.mk.injEq] at h
      rw [← h.2]
      simp
    · simp only [Option.map_eq_some', Prod.mk.injEq] at h
      obtain ⟨p, hp, hp1, hp2⟩ := h
      have := ih p.1 p.2 (by rw [hp])
      rw [hp2] at this
      simp only [List.length_cons]
      omega

theorem findAllAux_congr :
    ∀ (n : Nat) (s : Str), s.length ≤ n → ∀ f₁ f₂, s.length ≤ f₁ → s.length ≤ f₂ →
      findAllAux f₁ s = findAllAux f₂ s := by
  intro n
  induction n with
  | zero =>
    intro s hs f₁ f₂ _ _
    have : s = [] := List.length_eq_zero.mp (Nat.le_zero.mp hs)
    subst this
    cases f₁ <;> cases f₂ <;> rfl
  | succ n ih =>
    intro s hs f₁ f₂ h₁ h₂
    match s, f₁, f₂ with
    | [], f₁, f₂ => cases f₁ <;> cases f₂ <;> rfl
    | c :: t, 0, _ => simp at h₁
    | c :: t, _, 0 => simp at h₂
    | c :: t, f₁ + 1, f₂ + 1 =>
      simp only [List.length_cons] at hs h₁ h₂
      simp only [findAllAux]
      by_cases hc : c = '\x7b'
      · rw [if_pos hc, if_pos hc]
        cases hsc : scanSpan t with
        | none => exact ih t (by omega) f₁ f₂ (by omega) (by omega)
        | some pr =>
          have hlt := scanSpan_shrink t pr.1 pr.2 (by rw [hsc])
          simp only
          rw [ih pr.2 (by omega) f₁ f₂ (by omega) (by omega)]
      · rw [if_neg hc, if_neg hc]
        exact ih t (by omega) f₁ f₂ (by omega) (by omega)

theorem findAllAux_eq (f : Nat) (s : Str) (h : s.length ≤ f) :
    findAllAux f s = findAllBraced s :=
  findAllAux_congr s.length s le_rfl f s.length h le_rfl

theorem findAll_open (t sp rest : Str) (hs : scanSpan t = some (sp, rest)) :
    findAllBraced ('\x7b' :: t) = sp :: findAllBraced rest := by
  show findAllAux ('\x7b' :: t).length ('\x7b' :: t) = _
  simp only [List.length_cons, findAllAux, if_pos rfl, hs, if_true]
  have hlt := scanSpan_shrink t sp rest hs
  rw [findAllAux_eq t.length rest (by omega)]

theorem findAll_skip (c : Char) (t : Str) (h : c ≠ '\x7b') :
    findAllBraced (c :: t) = findAllBraced t := by
  show findAllAux (c :: t).length (c :: t) = _
  simp only [List.length_cons, findAllAux, if_neg h]
  exact findAllAux_eq t.length t le_rfl

theorem findAll_out (o : Str) : ∀ b, '\x7b' ∉ o → findAllBraced (o ++ b) = findAllBraced b := by
  induction o with
  | nil => intro b _; rfl
  | cons c t ih =>
    intro b ho
    have hc : c ≠ '\x7b' := fun h => ho (h ▸ List.mem_cons_self c t)
    have ht : '\x7b' ∉ t := fun h => ho (List.mem_cons_of_mem c h)
    rw [List.cons_append, findAll_skip c _ hc, ih b ht]

theorem findAll_flatten : ∀ segs : List Seg,
    (∀ o, Seg.out o ∈ segs → '\x7b' ∉ o) →
    (∀ s, Seg.span s ∈ segs → '\x7d' ∉ s ∧ '\n' ∉ s) →
    findAllBraced (flattenSegs segs) = spansOf segs := by
  intro segs
  induction segs with
  | nil => intro _ _; rfl
  | cons sg rest ih =>
    intro houts hspans
    have houts' : ∀ o, Seg.out o ∈ rest → '\x7b' ∉ o :=
      fun o ho => houts o (List.mem_cons_of_mem sg ho)
    have hspans' : ∀ s, Seg.span s ∈ rest → '\x7d' ∉ s ∧ '\n' ∉ s :=
      fun s hsm => hspans s (List.mem_cons_of_mem sg hsm)
    cases sg with
    | out o =>
      show findAllBraced (o ++ flattenSegs rest) = spansOf rest
      rw [findAll_out o _ (houts o (List.mem_cons_self _ _)), ih houts' hspans']
    | span s =>
      obtain ⟨hb, hn⟩ := hspans s (List.mem_cons_self _ _)
      show findAllBraced ('\x7b' :: (s ++ ['\x7d'] ++ flattenSegs rest)) = s :: spansOf rest
      rw [show s ++ ['\x7d'] ++ flattenSegs rest = s ++ '\x7d' :: flattenSegs rest by
        simp [List.append_assoc]]
      rw [findAll_open _ _ _ (scanSpan_append s (flattenSegs rest) hb hn),
        ih houts' hspans']

/- ### Title formatting (C1): forward placeholder replacement -/

theorem renderD_out (done : List Str) (o : Str) (r : List Seg) :
    renderD done (Seg.out o :: r) = o ++ renderD done r := rfl

theorem renderD_span (done : List Str) (s : Str) (r : List Seg) :
    renderD done (Seg.span s :: r) =
      (if s ∈ done then phTok (idxIn done s) else '\x7b' :: (s ++ ['\x7d'])) ++
        renderD done r := rfl

theorem renderD_nil_done : ∀ segs, renderD [] segs = flattenSegs segs := by
  intro segs
  induction segs with
  | nil => rfl
  | cons sg r ih =>
    cases sg with
    | out o =>
      rw [renderD_out, ih]
      rfl
    | span s =>
      rw [renderD_span, if_neg (List.not_mem_nil s), ih]
      show '\x7b' :: (s ++ ['\x7d']) ++ flattenSegs r = '\x7b' :: s ++ ['\x7d'] ++ flattenSegs r
      simp [List.append_assoc]

theorem phTok_chars_ne_brace : ∀ j, j < 10 → ∀ c ∈ phTok j, c ≠ '\x7b' := by decide

theorem spansOf_mem : ∀ (segs : List Seg) (s : Str), s ∈ spansOf segs → Seg.span s ∈ segs := by
  intro segs
  induction segs with
  | nil => intro s h; cases h
  | cons sg r ih =>
    intro s h
    cases sg with
    | out o => exact List.mem_cons_of_mem _ (ih s h)
    | span s' =>
      cases List.mem_cons.mp h with
      | inl he => exact he ▸ List.mem_cons_self _ _
      | inr hr => exact List.mem_cons_of_mem _ (ih s hr)

theorem renderD_step (sp : Str) :
    ∀ (segs : List Seg) (done : List Str),
      done.length ≤ 9 →
      sp ∉ done →
      '\x7d' ∉ sp →
      (∀ o, Seg.out o ∈ segs → '\x7b' ∉ o) →
      (∀ s, Seg.span s ∈ segs → '\x7b' ∉ s ∧ '\x7d' ∉ s) →
      pyReplace (renderD done segs) ('\x7b' :: (sp ++ ['\x7d'])) (phTok done.length) =
        renderD (done ++ [sp]) segs := by
  intro segs
  induction segs with
  | nil => intro done _ _ _ _ _; rfl
  | cons sg r ih =>
    intro done hd9 hspd hspb houts hspans
    have houts' : ∀ o, Seg.out o ∈ r → '\x7b' ∉ o :=
      fun o ho => houts o (List.mem_cons_of_mem sg ho)
    have hspans' : ∀ s, Seg.span s ∈ r → '\x7b' ∉ s ∧ '\x7d' ∉ s :=
      fun s hs => hspans s (List.mem_cons_of_mem sg hs)
    have ihr := ih done hd9 hspd hspb houts' hspans'
    cases sg with
    | out o =>
      rw [renderD_out, renderD_out]
      have ho : ∀ c ∈ o, c ≠ '\x7b' := by
        intro c hc he
        exact houts o (List.mem_cons_self _ _) (he ▸ hc)
      rw [pyReplace_skip '\x7b' (sp ++ ['\x7d']) (phTok done.length) o _ ho, ihr]
    | span s =>
      rw [renderD_span, renderD_span]
      by_cases hmem : s ∈ done
      · rw [if_pos hmem, if_pos (List.mem_append_left [sp] hmem),
          idxIn_append_of_mem s sp done hmem]
        have hidx : idxIn done s < 10 := by
          have := idxIn_lt_of_mem s done hmem
          omega
        have htokc : ∀ c ∈ phTok (idxIn done s), c ≠ '\x7b' :=
          phTok_chars_ne_brace _ hidx
        rw [pyReplace_skip '\x7b' (sp ++ ['\x7d']) (phTok done.length) _ _ htokc, ihr]
      · by_cases hseq : s = sp
        · subst hseq
          rw [if_neg hmem, if_pos (List.mem_append_right done (List.mem_cons_self s _)),
            idxIn_append_self s done hmem]
          rw [List.cons_append]
          have hpre : ('\x7b' :: (s ++ ['\x7d'])).isPrefixOf
              ('\x7b' :: ((s ++ ['\x7d']) ++ renderD done r)) = true := by
            have := isPrefixOf_append_self ('\x7b' :: (s ++ ['\x7d'])) (renderD done r)
            rwa [List.cons_append] at this
          rw [pyReplace_pos _ _ _ _ (by simp) hpre]
          have hdrop : (('\x7b' :: ((s ++ ['\x7d']) ++ renderD done r)).drop
              ('\x7b' :: (s ++ ['\x7d'])).length) = renderD done r := by
            have he : ('\x7b' :: (s ++ ['\x7d'])) ++ renderD done r =
                '\x7b' :: ((s ++ ['\x7d']) ++ renderD done r) := List.cons_append _ _ _
            rw [← he, List.drop_left]
          rw [hdrop, ihr]
        · obtain ⟨hsb, hsd⟩ := hspans s (List.mem_cons_self _ _)
          rw [if_neg hmem, if_neg (by
            intro hin
            cases List.mem_append.mp hin with
            | inl h => exact hmem h
            | inr h => exact hseq (List.mem_singleton.mp h))]
          rw [List.cons_append]
          rw [show (s ++ ['\x7d']) ++ renderD done r = s ++ '\x7d' :: renderD done r by
            simp [List.append_assoc]]
          have hnp := brace_pat_mismatch sp s (renderD done r) hspb hsd
            (fun he => hseq he.symm)
          rw [pyReplace_neg _ _ _ _ hnp]
          rw [show s ++ '\x7d' :: renderD done r = (s ++ ['\x7d']) ++ renderD done r by
            simp [List.append_assoc]]
          have hchars : ∀ c ∈ s ++ ['\x7d'], c ≠ '\x7b' := by
            intro c hc
            cases List.mem_append.mp hc with
            | inl h => exact fun he => hsb (he ▸ h)
            | inr h =>
              rw [List.mem_singleton.mp h]
              decide
          rw [pyReplace_skip '\x7b' (sp ++ ['\x7d']) (phTok done.length) _ _ hchars, ihr]
          rw [List.cons_append]

theorem forward_fold (segs : List Seg) :
    ∀ (rest done : List Str),
      spansOf segs = done ++ rest →
      (spansOf segs).Nodup →
      (spansOf segs).length ≤ 10 →
      (∀ o, Seg.out o ∈ segs → '\x7b' ∉ o) →
      (∀ s, Seg.span s ∈ segs → '\x7b' ∉ s ∧ '\x7d' ∉ s) →
      List.foldl (fun acc p => pyReplace acc ('\x7b' :: (p.2 ++ ['\x7d'])) (phTok p.1))
        (renderD done segs) (List.enumFrom done.length rest) =
      renderD (spansOf segs) segs := by
  intro rest
  induction rest with
  | nil =>
    intro done hsplit _ _ _ _
    rw [List.append_nil] at hsplit
    rw [← hsplit]
    rfl
  | cons sp rest' ih =>
    intro done hsplit hnd hlen houts hspans
    have hk : List.enumFrom done.length (sp :: rest') =
        (done.length, sp) :: List.enumFrom (done.length + 1) rest' := rfl
    rw [hk, List.foldl_cons]
    have hnd' := hsplit ▸ hnd
    have hspnd : sp ∉ done := by
      rw [List.nodup_append] at hnd'
      intro hin
      exact hnd'.2.2 hin (List.mem_cons_self sp rest')
    have hd9 : done.length ≤ 9 := by
      have := congrArg List.length hsplit
      simp only [List.length_append, List.length_cons] at this
      omega
    have hspmem : sp ∈ spansOf segs := by
      rw [hsplit]
      exact List.mem_append_right done (List.mem_cons_self sp rest')
    have hspd : '\x7d' ∉ sp :=
      (hspans sp (spansOf_mem segs sp hspmem)).2
    rw [show pyReplace (renderD done segs) ('\x7b' :: (sp ++ ['\x7d']))
        (phTok done.length) = renderD (done ++ [sp]) segs
      from renderD_step sp segs done hd9 hspnd hspd houts hspans]
    have hsplit' : spansOf segs = (done ++ [sp]) ++ rest' := by
      rw [hsplit]
      simp
    have hlen' : (done ++ [sp]).length = done.length + 1 := by simp
    have := ih (done ++ [sp]) hsplit' hnd hlen houts hspans
    rw [hlen'] at this
    exact this

/- ### Title formatting (C1): well-formed placeholder strings -/

theorem goodPH_of_no_underscore (n : Nat) : ∀ s : Str, '_' ∉ s → goodPH n s = true := by
  intro s
  induction s with
  | nil => intro _; rfl
  | cons c t ih =>
    intro h
    have hc : c ≠ '_' := fun he => h (he ▸ List.mem_cons_self c t)
    rw [goodPH_cons_ne n c t hc]
    exact ih (fun hm => h (List.mem_cons_of_mem _ hm))

theorem goodPH_tok_build (n : Nat) (e : Char) (t : Str) (hd : isDigitC e = true)
    (hlt : e.toNat - 48 < n) (hg : goodPH n t = true) :
    goodPH n ('_' :: 'p' :: e :: t) = true := by
  rw [goodPH_tok]
  simp [hd, hlt, hg]

theorem goodPH_append (n : Nat) :
    ∀ (m : Nat) (a : Str), a.length ≤ m → ∀ b : Str,
      goodPH n a = true → goodPH n b = true → goodPH n (a ++ b) = true := by
  intro m
  induction m with
  | zero =>
    intro a ha b hga hgb
    have : a = [] := List.length_eq_zero.mp (Nat.le_zero.mp ha)
    subst this
    exact hgb
  | succ m ih =>
    intro a ha b hga hgb
    cases a with
    | nil => exact hgb
    | cons c t =>
      simp only [List.length_cons] at ha
      cases goodPH_cons_inv n c t hga with
      | inl hc =>
        rw [List.cons_append, goodPH_cons_ne n c _ hc.1]
        exact ih t (by omega) b hc.2 hgb
      | inr hc =>
        obtain ⟨hce, e, t', ht, hde, hlt, hg⟩ := hc
        subst hce
        subst ht
        simp only [List.length_cons] at ha
        show goodPH n ('_' :: 'p' :: e :: (t' ++ b)) = true
        exact goodPH_tok_build n e _ hde hlt (ih t' (by omega) b hg hgb)

theorem goodPH_phTok_append (n j : Nat) (hj : j < 10) (hlt : j < n) (t : Str)
    (hg : goodPH n t = true) : goodPH n (phTok j ++ t) = true := by
  rw [phTok_lt10 j hj]
  obtain ⟨hdig, hval, -, -⟩ := digitChar_facts j hj
  show goodPH n ('_' :: 'p' :: Nat.digitChar j :: t) = true
  exact goodPH_tok_build n _ t hdig (by rw [hval]; exact hlt) hg

theorem goodPH_renderD (segs : List Seg) :
    ∀ done : List Str, done.length ≤ 10 →
      (∀ o, Seg.out o ∈ segs → '_' ∉ o) →
      (∀ s, Seg.span s ∈ segs → s ∈ done) →
      goodPH done.length (renderD done segs) = true := by
  induction segs with
  | nil => intro done _ _ _; rfl
  | cons sg r ih =>
    intro done hd10 houts hspans
    have houts' : ∀ o, Seg.out o ∈ r → '_' ∉ o :=
      fun o ho => houts o (List.mem_cons_of_mem sg ho)
    have hspans' : ∀ s, Seg.span s ∈ r → s ∈ done :=
      fun s hs => hspans s (List.mem_cons_of_mem sg hs)
    cases sg with
    | out o =>
      rw [renderD_out]
      exact goodPH_append done.length o.length o le_rfl _
        (goodPH_of_no_underscore _ o (houts o (List.mem_cons_self _ _)))
        (ih done hd10 houts' hspans')
    | span s =>
      have hmem := hspans s (List.mem_cons_self _ _)
      rw [renderD_span, if_pos hmem]
      have hidx := idxIn_lt_of_mem s done hmem
      exact goodPH_phTok_append done.length _ (by omega) hidx _
        (ih done hd10 houts' hspans')

/- ### Title formatting (C1): title-casing preserves placeholder structure -/

theorem isDigitC_ne_space (c : Char) (h : isDigitC c = true) : c ≠ ' ' := by
  simp only [isDigitC, Bool.and_eq_true, decide_eq_true_eq] at h
  intro hc
  subst hc
  rw [show (' ').toNat = 32 from rfl] at h
  omega

theorem splitWords_space (t : Str) : splitWords (' ' :: t) = [] :: splitWords t := by
  simp [splitWords]

theorem splitWords_ne (c : Char) (t : Str) (h : c ≠ ' ') :
    splitWords (c :: t) =
      match splitWords t with
      | [] => [[c]]
      | w :: ws => (c :: w) :: ws := by
  simp [splitWords, h]

theorem splitWords_ne_nil : ∀ s : Str, splitWords s ≠ [] := by
  intro s
  induction s with
  | nil => simp [splitWords]
  | cons c t ih =>
    by_cases hc : c = ' '
    · subst hc
      rw [splitWords_space]
      simp
    · rw [splitWords_ne c t hc]
      cases splitWords t <;> simp

theorem splitWords_good (n : Nat) :
    ∀ (m : Nat) (s : Str), s.length ≤ m → goodPH n s = true →
      ∀ w ∈ splitWords s, goodPH n w = true := by
  intro m
  induction m with
  | zero =>
    intro s hs _ w hw
    have : s = [] := List.length_eq_zero.mp (Nat.le_zero.mp hs)
    subst this
    simp [splitWords] at hw
    subst hw
    rfl
  | succ m ih =>
    intro s hs hg w hw
    cases s with
    | nil =>
      simp [splitWords] at hw
      subst hw
      rfl
    | cons c t =>
      simp only [List.length_cons] at hs
      cases goodPH_cons_inv n c t hg with
      | inl hc =>
        by_cases hsp : c = ' '
        · subst hsp
          rw [splitWords_space] at hw
          cases List.mem_cons.mp hw with
          | inl he => subst he; rfl
          | inr hr => exact ih t (by omega) hc.2 w hr
        · rw [splitWords_ne c t hsp] at hw
          cases hsw : splitWords t with
          | nil => exact absurd hsw (splitWords_ne_nil t)
          | cons w0 ws =>
            rw [hsw] at hw
            cases List.mem_cons.mp hw with
            | inl he =>
              subst he
              rw [goodPH_cons_ne n c w0 hc.1]
              exact ih t (by omega) hc.2 w0 (hsw ▸ List.mem_cons_self w0 ws)
            | inr hr =>
              exact ih t (by omega) hc.2 w (hsw ▸ List.mem_cons_of_mem w0 hr)
      | inr hc =>
        obtain ⟨hce, e, t', ht, hde, hlt, hgt⟩ := hc
        subst hce
        subst ht
        simp only [List.length_cons] at hs
        have hpne : ('p' : Char) ≠ ' ' := by decide
        have hene : e ≠ ' ' := isDigitC_ne_space e hde
        have hune : ('_' : Char) ≠ ' ' := by decide
        cases hsw : splitWords t' with
        | nil => exact absurd hsw (splitWords_ne_nil t')
        | cons w0 ws =>
          rw [splitWords_ne '_' _ hune, splitWords_ne 'p' _ hpne,
            splitWords_ne e _ hene, hsw] at hw
          simp only at hw
          cases List.mem_cons.mp hw with
          | inl he =>
            subst he
            exact goodPH_tok_build n e w0 hde hlt
              (ih t' (by omega) hgt w0 (hsw ▸ List.mem_cons_self w0 ws))
          | inr hr =>
            exact ih t' (by omega) hgt w (hsw ▸ List.mem_cons_of_mem w0 hr)

theorem lowerWord_good (n : Nat) :
    ∀ (m : Nat) (w : Str), w.length ≤ m → goodPH n w = true →
      goodPH n (lowerWord w) = true := by
  intro m
  induction m with
  | zero =>
    intro w hw _
    have : w = [] := List.length_eq_zero.mp (Nat.le_zero.mp hw)
    subst this
    rfl
  | succ m ih =>
    intro w hw hg
    cases w with
    | nil => rfl
    | cons c t =>
      simp only [List.length_cons] at hw
      cases goodPH_cons_inv n c t hg with
      | inl hc =>
        show goodPH n (asciiLower c :: lowerWord t) = true
        rw [goodPH_cons_ne n _ _ (asciiLower_ne_underscore c hc.1)]
        exact ih t (by omega) hc.2
      | inr hc =>
        obtain ⟨hce, e, t', ht, hde, hlt, hgt⟩ := hc
        subst hce
        subst ht
        simp only [List.length_cons] at hw
        show goodPH n
          (asciiLower '_' :: asciiLower 'p' :: asciiLower e :: lowerWord t') = true
        rw [show asciiLower '_' = '_' from by decide,
          show asciiLower 'p' = 'p' from by decide, asciiLower_digit e hde]
        exact goodPH_tok_build n e _ hde hlt (ih t' (by omega) hgt)

theorem capFirstWord_good (n : Nat) (w : Str) (h : goodPH n w = true) :
    goodPH n (capFirstWord w) = true := by
  cases w with
  | nil => rfl
  | cons c t =>
    cases goodPH_cons_inv n c t h with
    | inl hc =>
      show goodPH n (asciiUpper c :: t) = true
      rw [goodPH_cons_ne n _ _ (asciiUpper_ne_underscore c hc.1)]
      exact hc.2
    | inr hc =>
      obtain ⟨hce, e, t', ht, hde, hlt, hgt⟩ := hc
      subst hce
      show goodPH n (asciiUpper '_' :: t) = true
      rw [show asciiUpper '_' = '_' from by decide]
      exact h

theorem joinWords_good (n : Nat) :
    ∀ ws : List Str, (∀ w ∈ ws, goodPH n w = true) → goodPH n (joinWords ws) = true := by
  intro ws
  induction ws with
  | nil => intro _; rfl
  | cons w ws ih =>
    intro h
    cases ws with
    | nil => exact h w (List.mem_cons_self w [])
    | cons v ws' =>
      show goodPH n (w ++ ' ' :: joinWords (v :: ws')) = true
      apply goodPH_append n w.length w le_rfl
      · exact h w (List.mem_cons_self _ _)
      · rw [goodPH_cons_ne n ' ' _ (by decide)]
        exact ih (fun u hu => h u (List.mem_cons_of_mem w hu))

theorem mem_enumFrom_snd :
    ∀ (l : List Str) (k : Nat) (p : Nat × Str), p ∈ List.enumFrom k l → p.2 ∈ l := by
  intro l
  induction l with
  | nil => intro k p h; cases h
  | cons x xs ih =>
    intro k p h
    cases List.mem_cons.mp h with
    | inl he => rw [he]; exact List.mem_cons_self x xs
    | inr hr => exact List.mem_cons_of_mem x (ih (k + 1) p hr)

theorem titlecase_good (n : Nat) (s : Str) (h : goodPH n s = true) :
    goodPH n (titlecase s) = true := by
  unfold titlecase
  apply joinWords_good
  intro w' hw'
  rw [List.mem_map] at hw'
  obtain ⟨p, hp, hw⟩ := hw'
  have hps : p.2 ∈ splitWords s := mem_enumFrom_snd (splitWords s) 0 p hp
  have hgw := splitWords_good n s.length s le_rfl h p.2 hps
  rw [← hw]
  split_ifs
  · exact lowerWord_good n p.2.length p.2 le_rfl hgw
  · exact capFirstWord_good n p.2 hgw

/- ### Title formatting (C1): backward substitution -/

theorem phTok_head (i : Nat) : phTok i = '_' :: 'p' :: (Nat.repr i).data := rfl

theorem back_fold_nil : ∀ l : List (Nat × Str),
    List.foldl (fun acc p => pyReplace acc (phTok p.1) p.2) [] l = [] := by
  intro l
  induction l with
  | nil => rfl
  | cons q l' ih =>
    rw [List.foldl_cons]
    show List.foldl _ (pyReplace [] (phTok q.1) q.2) l' = []
    rw [pyReplace_nil]
    exact ih

theorem back_fold_cons_ne (c : Char) (hc : c ≠ '_') :
    ∀ (l : List (Nat × Str)) (T : Str),
      List.foldl (fun acc p => pyReplace acc (phTok p.1) p.2) (c :: T) l =
        c :: List.foldl (fun acc p => pyReplace acc (phTok p.1) p.2) T l := by
  intro l
  induction l with
  | nil => intro T; rfl
  | cons q l' ih =>
    intro T
    rw [List.foldl_cons, List.foldl_cons]
    show List.foldl _ (pyReplace (c :: T) (phTok q.1) q.2) l' = _
    rw [phTok_head, pyReplace_neg _ _ _ _ (by
      rw [isPrefixOf_cons_ne (show c ≠ '_' from hc)]
      simp)]
    rw [← phTok_head]
    exact ih _

theorem back_fold_skip (a : Str) (ha : '_' ∉ a) :
    ∀ (l : List (Nat × Str)) (T : Str),
      List.foldl (fun acc p => pyReplace acc (phTok p.1) p.2) (a ++ T) l =
        a ++ List.foldl (fun acc p => pyReplace acc (phTok p.1) p.2) T l := by
  intro l
  induction l with
  | nil => intro T; rfl
  | cons q l' ih =>
    intro T
    rw [List.foldl_cons, List.foldl_cons]
    show List.foldl _ (pyReplace (a ++ T) (phTok q.1) q.2) l' = _
    rw [phTok_head, pyReplace_skip '_' _ _ a T (fun c hc he => ha (he ▸ hc)), ← phTok_head]
    exact ih _

theorem pyReplace_tok_ne (i j : Nat) (u s : Str) (hi : i < 10) (hj : j < 10)
    (hne : i ≠ j) :
    pyReplace (phTok j ++ u) (phTok i) s = phTok j ++ pyReplace u (phTok i) s := by
  rw [phTok_lt10 i hi, phTok_lt10 j hj]
  obtain ⟨hdi, -, -, hui⟩ := digitChar_facts i hi
  obtain ⟨hdj, -, -, huj⟩ := digitChar_facts j hj
  have hdij : Nat.digitChar i ≠ Nat.digitChar j := by
    intro he
    have h1 : (Nat.digitChar i).toNat - 48 = i := (digitChar_facts i hi).2.1
    have h2 : (Nat.digitChar j).toNat - 48 = j := (digitChar_facts j hj).2.1
    rw [he, h2] at h1
    exact hne h1.symm
  show pyReplace ('_' :: 'p' :: Nat.digitChar j :: u) _ _ = _
  rw [pyReplace_neg _ _ _ _ (by
    simp only [List.isPrefixOf, Bool.and_eq_true, beq_iff_eq]
    rintro ⟨-, -, hq, -⟩
    exact hdij hq)]
  rw [pyReplace_neg _ _ _ _ (by
    rw [isPrefixOf_cons_ne (show ('p' : Char) ≠ '_' by decide)]
    simp)]
  rw [pyReplace_neg _ _ _ _ (by
    rw [isPrefixOf_cons_ne (show Nat.digitChar j ≠ '_' from huj)]
    simp)]
  rfl

theorem pyReplace_tok_hit (j : Nat) (u s : Str) :
    pyReplace (phTok j ++ u) (phTok j) s = s ++ pyReplace u (phTok j) s := by
  have h1 : phTok j ++ u = '_' :: (('p' :: (Nat.repr j).data) ++ u) := rfl
  have hpre : (phTok j).isPrefixOf ('_' :: (('p' :: (Nat.repr j).data) ++ u)) = true := by
    rw [← h1]
    exact isPrefixOf_append_self _ _
  rw [h1, pyReplace_pos _ _ _ _ (by simp [phTok]) hpre]
  congr 1
  rw [show ('_' :: (('p' :: (Nat.repr j).data) ++ u)) = phTok j ++ u from h1.symm,
    List.drop_left]

theorem back_fold_tok_ne (j : Nat) (hj : j < 10) :
    ∀ (l : List (Nat × Str)) (u : Str), (∀ p ∈ l, p.1 < 10 ∧ p.1 ≠ j) →
      List.foldl (fun acc p => pyReplace acc (phTok p.1) p.2) (phTok j ++ u) l =
        phTok j ++ List.foldl (fun acc p => pyReplace acc (phTok p.1) p.2) u l := by
  intro l
  induction l with
  | nil => intro u _; rfl
  | cons q l' ih =>
    intro u hb
    obtain ⟨hq10, hqne⟩ := hb q (List.mem_cons_self q l')
    rw [List.foldl_cons, List.foldl_cons]
    show List.foldl _ (pyReplace (phTok j ++ u) (phTok q.1) q.2) l' = _
    rw [pyReplace_tok_ne q.1 j u q.2 hq10 hj hqne]
    exact ih _ (fun p hp => hb p (List.mem_cons_of_mem q hp))

theorem mem_enumFrom_fst : ∀ (l : List Str) (k : Nat) (p : Nat × Str),
    p ∈ List.enumFrom k l → k ≤ p.1 ∧ p.1 < k + l.length := by
  intro l
  induction l with
  | nil => intro k p h; cases h
  | cons x xs ih =>
    intro k p h
    cases List.mem_cons.mp h with
    | inl he =>
      rw [he]
      simp
    | inr hr =>
      have := ih (k + 1) p hr
      simp only [List.length_cons]
      omega

theorem getD_mem : ∀ (l : List Str) (j : Nat), j < l.length → l.getD j [] ∈ l := by
  intro l
  induction l with
  | nil => intro j h; exact absurd h (Nat.not_lt_zero j)
  | cons x xs ih =>
    intro j h
    cases j with
    | zero => simp [List.getD]
    | succ j =>
      have hj : j < xs.length := by
        simp only [List.length_cons] at h
        omega
      have := ih j hj
      simp only [List.getD] at this ⊢
      rw [List.get?_cons_succ]
      exact List.mem_cons_of_mem x this

theorem drop_eq_getD_cons : ∀ (l : List Str) (j : Nat), j < l.length →
    l.drop j = l.getD j [] :: l.drop (j + 1) := by
  intro l
  induction l with
  | nil => intro j h; exact absurd h (Nat.not_lt_zero j)
  | cons x xs ih =>
    intro j h
    cases j with
    | zero => simp [List.getD]
    | succ j =>
      have hj : j < xs.length := by
        simp only [List.length_cons] at h
        omega
      simp only [List.drop_succ_cons, List.getD, List.get?_cons_succ]
      have := ih j hj
      simp only [List.getD] at this
      exact this

theorem back_fold_substPH (spans : List Str) (hn10 : spans.length ≤ 10)
    (hsp : ∀ s ∈ spans, '_' ∉ s) :
    ∀ (m : Nat) (T : Str), T.length ≤ m → goodPH spans.length T = true →
      List.foldl (fun acc p => pyReplace acc (phTok p.1) p.2) T (List.enum spans) =
        substPH spans T := by
  intro m
  induction m with
  | zero =>
    intro T hlen _
    cases T with
    | nil => rw [back_fold_nil]; rfl
    | cons c t => simp only [List.length_cons] at hlen; omega
  | succ m ih =>
    intro T hlen hg
    cases T with
    | nil => rw [back_fold_nil]; rfl
    | cons c t =>
      rcases goodPH_cons_inv spans.length c t hg with ⟨hc, hgt⟩ | ⟨hc, e, t', ht, hd, hlt, hgt'⟩
      · rw [back_fold_cons_ne c hc, substPH_cons_ne spans c t hc,
          ih t (by simp only [List.length_cons] at hlen; omega) hgt]
      · subst hc
        subst ht
        have hj10 : e.toNat - 48 < 10 := isDigitC_lt10 e hd
        have hjlen : e.toNat - 48 < spans.length := hlt
        have hT : ('_' :: 'p' :: e :: t' : Str) = phTok (e.toNat - 48) ++ t' := by
          rw [phTok_lt10 _ hj10, digitChar_roundtrip e hd]
          rfl
        have htklen : (spans.take (e.toNat - 48)).length = e.toNat - 48 := by
          rw [List.length_take]
          omega
        have henum : List.enum spans =
            List.enumFrom 0 (spans.take (e.toNat - 48)) ++
              (e.toNat - 48, spans.getD (e.toNat - 48) []) ::
                List.enumFrom (e.toNat - 48 + 1) (spans.drop (e.toNat - 48 + 1)) := by
          show List.enumFrom 0 spans = _
          conv_lhs => rw [← List.take_append_drop (e.toNat - 48) spans,
            drop_eq_getD_cons spans _ hjlen]
          rw [List.enumFrom_append, htklen, Nat.zero_add, List.enumFrom_cons]
        have hb1 : ∀ p ∈ List.enumFrom 0 (spans.take (e.toNat - 48)),
            p.1 < 10 ∧ p.1 ≠ e.toNat - 48 := by
          intro p hp
          have hmem := mem_enumFrom_fst _ 0 p hp
          rw [List.length_take] at hmem
          omega
        have hsj : '_' ∉ spans.getD (e.toNat - 48) [] :=
          hsp _ (getD_mem spans _ hjlen)
        have hlen' : t'.length ≤ m := by
          simp only [List.length_cons] at hlen
          omega
        rw [substPH_tok spans e t' hd hlt]
        rw [hT, henum, List.foldl_append, List.foldl_cons,
          back_fold_tok_ne (e.toNat - 48) hj10 _ t' hb1]
        change List.foldl _ (pyReplace (phTok (e.toNat - 48) ++
            List.foldl (fun acc p => pyReplace acc (phTok p.1) p.2) t'
              (List.enumFrom 0 (spans.take (e.toNat - 48))))
          (phTok (e.toNat - 48)) (spans.getD (e.toNat - 48) [])) _ = _
        rw [pyReplace_tok_hit (e.toNat - 48) _ (spans.getD (e.toNat - 48) []),
          back_fold_skip _ hsj]
        congr 1
        rw [← ih t' hlen' hgt', henum, List.foldl_append, List.foldl_cons]

theorem flatten_has_brace : ∀ segs : List Seg, spansOf segs ≠ [] →
    '\x7b' ∈ flattenSegs segs := by
  intro segs
  induction segs with
  | nil => intro h; exact absurd rfl h
  | cons sg r ih =>
    intro h
    cases sg with
    | out o => exact List.mem_append_right o (ih h)
    | span s => exact List.mem_cons_self _ _

theorem mem_spansOf : ∀ (segs : List Seg) (s : Str), Seg.span s ∈ segs →
    s ∈ spansOf segs := by
  intro segs
  induction segs with
  | nil => intro s h; cases h
  | cons sg r ih =>
    intro s h
    cases List.mem_cons.mp h with
    | inl he =>
      subst he
      exact List.mem_cons_self _ _
    | inr hr =>
      cases sg with
      | out o => exact ih s hr
      | span s' => exact List.mem_cons_of_mem s' (ih s hr)

/-- C1 (amended): for every title whose collapsed form decomposes into plain
text and brace-delimited spans with the plain text free of opening braces and
underscores, the span texts free of braces, newlines and underscores,
pairwise distinct, and between one and ten in number, `format_title` computes
exactly the specified placeholder pipeline: each span is replaced by its
positional placeholder token, the result is title-cased with the placeholders
undisturbed, and each placeholder occurrence is substituted back by its
span's original text verbatim. -/
theorem c1_title_formatting (title : Str) (segs : List Seg)
    (hcoll : collapseBraces title = flattenSegs segs)
    (hgood : goodSegs segs = true) :
    format_title title = formatTitleSpec segs := by
  unfold goodSegs at hgood
  rw [Bool.and_eq_true, Bool.and_eq_true, Bool.and_eq_true] at hgood
  obtain ⟨⟨⟨hallB, hndB⟩, hle10B⟩, hnempB⟩ := hgood
  have hnd : (spansOf segs).Nodup := of_decide_eq_true hndB
  have hle10 : (spansOf segs).length ≤ 10 := of_decide_eq_true hle10B
  have hnemp : spansOf segs ≠ [] := by
    intro h
    rw [h] at hnempB
    exact absurd hnempB (by decide)
  have hall := List.all_eq_true.mp hallB
  have houts_brace : ∀ o, Seg.out o ∈ segs → '\x7b' ∉ o := by
    intro o ho
    have h := hall (Seg.out o) ho
    simp only [Bool.and_eq_true, decide_eq_true_eq] at h
    exact h.1
  have houts_us : ∀ o, Seg.out o ∈ segs → '_' ∉ o := by
    intro o ho
    have h := hall (Seg.out o) ho
    simp only [Bool.and_eq_true, decide_eq_true_eq] at h
    exact h.2
  have hspans4 : ∀ s, Seg.span s ∈ segs →
      '\x7b' ∉ s ∧ '\x7d' ∉ s ∧ '\n' ∉ s ∧ '_' ∉ s := by
    intro s hs
    have h := hall (Seg.span s) hs
    simp only [Bool.and_eq_true, decide_eq_true_eq] at h
    exact ⟨h.1.1.1, h.1.1.2, h.1.2, h.2⟩
  have hne_title : title ≠ [] := by
    intro h
    have hb : '\x7b' ∈ flattenSegs segs := flatten_has_brace segs hnemp
    rw [← hcoll, h] at hb
    exact absurd hb (by decide)
  have hfwd : List.foldl
      (fun acc p => pyReplace acc ('\x7b' :: p.2 ++ ['\x7d']) (phTok p.1))
      (flattenSegs segs) (spansOf segs).enum = renderD (spansOf segs) segs := by
    rw [← renderD_nil_done segs]
    exact forward_fold segs (spansOf segs) [] (List.nil_append _).symm hnd hle10
      houts_brace (fun s hs => ⟨(hspans4 s hs).1, (hspans4 s hs).2.1⟩)
  have hgoodph : goodPH (spansOf segs).length (renderD (spansOf segs) segs) = true :=
    goodPH_renderD segs (spansOf segs) hle10 houts_us
      (fun s hs => mem_spansOf segs s hs)
  simp only [format_title, if_neg hne_title]
  rw [hcoll, findAll_flatten segs houts_brace
    (fun s hs => ⟨(hspans4 s hs).2.1, (hspans4 s hs).2.2.1⟩), hfwd]
  rw [back_fold_substPH (spansOf segs) hle10
    (fun s hs => (hspans4 s (spansOf_mem segs s hs)).2.2.2)
    (titlecase (renderD (spansOf segs) segs)).length _ le_rfl
    (titlecase_good _ _ hgoodph)]
  rfl

/-- C1: counterexample to the original claim.  On the title
`"\x7ba _p1 b\x7d \x7bX\x7d"` (which contains no doubled braces, so collapsing
is the identity, and decomposes into the span `"a _p1 b"`, the plain text
`" "` and the span `"X"`), the code returns `"a X b X"`: the sequential
`str.replace` back-substitution rewrites the placeholder token `_p1`
occurring inside the first span's just-substituted text, so the first span
is not preserved unchanged.  The specified pipeline — substitute each
placeholder occurrence by its span's original text, spans preserved verbatim
— yields `"a _p1 b X"` instead. -/
theorem c1_counterexample :
    collapseBraces (str "\x7ba _p1 b\x7d \x7bX\x7d") =
      flattenSegs [Seg.span (str "a _p1 b"), Seg.out (str " "), Seg.span (str "X")] ∧
    format_title (str "\x7ba _p1 b\x7d \x7bX\x7d") = str "a X b X" ∧
    formatTitleSpec [Seg.span (str "a _p1 b"), Seg.out (str " "), Seg.span (str "X")] =
      str "a _p1 b X" ∧
    format_title (str "\x7ba _p1 b\x7d \x7bX\x7d") ≠
      formatTitleSpec [Seg.span (str "a _p1 b"), Seg.out (str " "), Seg.span (str "X")] :=
  ⟨by decide, by decide, by decide, by decide⟩

/-- C1: witness instantiating the amended theorem on the title
`"on \x7b\x7bENSO\x7d\x7d dynamics"`, whose collapsed form decomposes into the
plain text `"on "`, the span `"ENSO"` and the plain text `" dynamics"` and
satisfies all side conditions. -/
theorem c1_witness :
    collapseBraces (str "on \x7b\x7bENSO\x7d\x7d dynamics") =
      flattenSegs [Seg.out (str "on "), Seg.span (str "ENSO"), Seg.out (str " dynamics")] ∧
    goodSegs [Seg.out (str "on "), Seg.span (str "ENSO"), Seg.out (str " dynamics")] = true ∧
    format_title (str "on \x7b\x7bENSO\x7d\x7d dynamics") =
      formatTitleSpec [Seg.out (str "on "), Seg.span (str "ENSO"), Seg.out (str " dynamics")] :=
  ⟨by decide, by decide,
    c1_title_formatting _ _ (by decide) (by decide)⟩
